import Mathlib

/-!
Verification of the incremental crime-log updater (`daily-log.py`).

The source file is shallowly embedded below.  Strings are modelled as
`List Char`; the two persisted files are modelled as optional byte
(character) contents; the remote fetch pipeline (HTTP + PDF table
extraction + row normalisation, an external collaborator per the spec)
is an oracle `Date → List Row` returning normalised rows; "today" is an
explicit parameter (the code calls `datetime.today()`).  The Python
`csv` and `json` stdlib serialisers are modelled concretely
(`encodeRow`/`runParse`, `writeJsonContent`); the csv model reproduces
the excel dialect (minimal quoting, doubled quotes, CRLF terminator).
`ThreadPoolExecutor`/`as_completed` collection order is modelled as the
submission (window) order; the claims proved below do not depend on the
completion order.  Python's stable `list.sort(key=..., reverse=True)`
is modelled by a stable insertion sort on the same boolean key order:
a stable sort's output is uniquely determined by the key order and the
input order, so any stable sort models it faithfully.
-/

abbrev Str := List Char

abbrev Row := List Str

/-- Column index of the `Event #` field (`IDX_EVENT = 1` in the source). -/
def IDX_EVENT : Nat := 1

/-- The eleven schema field names (`HEADERS` in the source). -/
def HEADERS : Row :=
  ["Date Reported".toList, "Event #".toList, "Case #".toList,
   "Offense".toList, "Initial Incident".toList, "Final Incident".toList,
   "Date From".toList, "Date To".toList, "Location".toList, "Disposition".toList,
   "URL".toList]

/-! ## Calendar dates -/

/-- A calendar date, as Python's `datetime.date` triple. -/
structure Date where
  y : Nat
  m : Nat
  d : Nat
deriving DecidableEq, Repr

/-- Gregorian leap-year test (as Python's `calendar`/`datetime`). -/
def isLeap (y : Nat) : Bool := y % 4 = 0 && (y % 100 ≠ 0 || y % 400 = 0)

/-- Days in a month (the `_DAYS_IN_MONTH` table of `datetime`); `0`
outside 1..12. -/
def daysInMonth (y m : Nat) : Nat :=
  match m with
  | 1 => 31
  | 2 => if isLeap y then 29 else 28
  | 3 => 31
  | 4 => 30
  | 5 => 31
  | 6 => 30
  | 7 => 31
  | 8 => 31
  | 9 => 30
  | 10 => 31
  | 11 => 30
  | 12 => 31
  | _ => 0

/-- The triples accepted by Python's `date(y, m, d)` constructor
(`MINYEAR = 1`, `MAXYEAR = 9999`). -/
def isValidDate (y m d : Nat) : Bool :=
  1 ≤ y && y ≤ 9999 && 1 ≤ m && m ≤ 12 && 1 ≤ d && d ≤ daysInMonth y m

/-- `date` comparison: Python compares `(y, m, d)` lexicographically. -/
def Date.leB (a b : Date) : Bool :=
  a.y < b.y || (a.y = b.y && (a.m < b.m || (a.m = b.m && a.d ≤ b.d)))

/-- Strict `date` comparison (`>` in the source is `b.ltB a`). -/
def Date.ltB (a b : Date) : Bool :=
  a.y < b.y || (a.y = b.y && (a.m < b.m || (a.m = b.m && a.d < b.d)))

/-- Monotone rank of a date triple; used only as a fuel measure for the
inclusive day iteration. -/
def Date.key (a : Date) : Nat := 500 * a.y + 32 * a.m + a.d

/-- `d + timedelta(days=1)` for calendar dates. -/
def Date.succ (a : Date) : Date :=
  if a.d < daysInMonth a.y a.m then ⟨a.y, a.m, a.d + 1⟩
  else if a.m < 12 then ⟨a.y, a.m + 1, 1⟩
  else ⟨a.y + 1, 1, 1⟩

def Date.valid (a : Date) : Bool := isValidDate a.y a.m a.d

/-- Fuelled unfolding of the `daterange` generator loop. -/
def daterangeAux : Nat → Date → Date → List Date
  | 0, _, _ => []
  | fuel + 1, cur, e => if cur.leB e then cur :: daterangeAux fuel cur.succ e else []

/-- `daterange(start, end)`: inclusive list of days.  The fuel
`e.key + 1 - s.key` dominates the number of loop iterations, so this
equals the Python generator's output. -/
def daterange (s e : Date) : List Date := daterangeAux (e.key + 1 - s.key) s e

/-- `EARLIEST_DATE = date(2023, 12, 4)`. -/
def EARLIEST_DATE : Date := ⟨2023, 12, 4⟩

/-! ## Character and string helpers -/

def isDigitCh (c : Char) : Bool := '0' ≤ c && c ≤ '9'

/-- Numeric value of a digit character. -/
def digVal (c : Char) : Nat := c.toNat - '0'.toNat

/-- Whitespace characters recognised by `str.strip()` (ASCII range). -/
def isSpaceCh (c : Char) : Bool :=
  c = ' ' || c = '\t' || c = '\n' || c = '\r' || c = '\x0b' || c = '\x0c'

/-- `s.strip()`. -/
def stripChars (s : Str) : Str :=
  ((s.dropWhile isSpaceCh).reverse.dropWhile isSpaceCh).reverse

/-- Numeric value of a digit string (`int(...)` on a digit string). -/
def toNatDigits (ds : Str) : Nat := ds.foldl (fun a c => 10 * a + digVal c) 0

/-- First alternative whose continuation succeeds (regex alternation
with backtracking). -/
def firstSome : List α → (α → Option β) → Option β
  | [], _ => none
  | a :: as, k => match k a with
    | some b => some b
    | none => firstSome as k

/-! ## The date parser (`parse_mmddyy_or_yyyy`, `parse_any_date_field`,
`best_row_date`)

Python's `strptime` matches `%m` with the regex `1[0-2]|0[1-9]|[1-9]`,
`%d` with `3[01]|[12]\d|0[1-9]|[1-9]`, `%y` with exactly two digits and
`%Y` with exactly four, requiring the whole string to be consumed, with
regex backtracking across the pieces.  `%y` values 0..68 map to
2000..2068 and 69..99 map to 1969..1999 (the POSIX pivot).  The
constructed date is validated by the `datetime` constructor; a failure
there is a `ValueError`, caught by the source's loop. -/

/-- Alternatives of the `%m` pattern `1[0-2]|0[1-9]|[1-9]` at the head
of the input, in regex order, each with the remaining input. -/
def monthAlts (s : Str) : List (Nat × Str) :=
  (match s with
   | c1 :: c :: rest =>
     if c1 = '1' && (c = '0' || c = '1' || c = '2') then [(10 + digVal c, rest)] else []
   | _ => []) ++
  (match s with
   | c1 :: c :: rest =>
     if c1 = '0' && (isDigitCh c && c ≠ '0') then [(digVal c, rest)] else []
   | _ => []) ++
  (match s with
   | c :: rest => if isDigitCh c && c ≠ '0' then [(digVal c, rest)] else []
   | [] => [])

/-- Alternatives of the `%d` pattern `3[01]|[12]\d|0[1-9]|[1-9]`. -/
def dayAlts (s : Str) : List (Nat × Str) :=
  (match s with
   | c1 :: c :: rest =>
     if c1 = '3' && (c = '0' || c = '1') then [(30 + digVal c, rest)] else []
   | _ => []) ++
  (match s with
   | c :: c2 :: rest =>
     if (c = '1' || c = '2') && isDigitCh c2 then [(10 * digVal c + digVal c2, rest)] else []
   | _ => []) ++
  (match s with
   | c1 :: c :: rest =>
     if c1 = '0' && (isDigitCh c && c ≠ '0') then [(digVal c, rest)] else []
   | _ => []) ++
  (match s with
   | c :: rest => if isDigitCh c && c ≠ '0' then [(digVal c, rest)] else []
   | [] => [])

/-- A literal `/` in the pattern, then the continuation. -/
def slashThen (k : Str → Option α) : Str → Option α
  | c :: rest => if c = '/' then k rest else none
  | [] => none

/-- `%y`: exactly two digits ending the string. -/
def yearEnd2 : Str → Option Nat
  | [c1, c2] => if isDigitCh c1 && isDigitCh c2 then some (10 * digVal c1 + digVal c2) else none
  | _ => none

/-- `%Y`: exactly four digits ending the string. -/
def yearEnd4 : Str → Option Nat
  | [c1, c2, c3, c4] =>
    if isDigitCh c1 && isDigitCh c2 && isDigitCh c3 && isDigitCh c4 then
      some (1000 * digVal c1 + 100 * digVal c2 + 10 * digVal c3 + digVal c4)
    else none
  | _ => none

/-- Whole-string match of `%m/%d/%y` (`ylen = 2`) or `%m/%d/%Y`
(`ylen = 4`), with backtracking. -/
def strictMDY (ylen : Nat) (s : Str) : Option (Nat × Nat × Nat) :=
  firstSome (monthAlts s) fun mr =>
    slashThen (fun r2 =>
      firstSome (dayAlts r2) fun dr =>
        slashThen (fun r4 =>
          (if ylen = 2 then yearEnd2 r4 else yearEnd4 r4).map fun y => (mr.1, dr.1, y))
          dr.2)
      mr.2

/-- The POSIX two-digit-year pivot applied by `strptime`'s `%y`. -/
def pivotY2 (y : Nat) : Nat := if y ≤ 68 then 2000 + y else 1900 + y

/-- `date(y, m, d)`: `some` on a valid triple, `none` models the raised
`ValueError`/`OverflowError` (always caught at the use sites). -/
def mkDate? (y m d : Nat) : Option Date :=
  if isValidDate y m d then some ⟨y, m, d⟩ else none

/-- Greedy alternatives of `\d{1,2}` at the head of the input (regex
tries two digits first, then one). -/
def digits12 (s : Str) : List (Str × Str) :=
  (match s with
   | c1 :: c2 :: r => if isDigitCh c1 && isDigitCh c2 then [([c1, c2], r)] else []
   | _ => []) ++
  (match s with
   | c1 :: r => if isDigitCh c1 then [([c1], r)] else []
   | [] => [])

/-- Greedy alternatives of `\d{2,4}`: four digits, then three, then two. -/
def digits24 (s : Str) : List (Str × Str) :=
  (match s with
   | c1 :: c2 :: c3 :: c4 :: r =>
     if isDigitCh c1 && isDigitCh c2 && isDigitCh c3 && isDigitCh c4 then
       [([c1, c2, c3, c4], r)] else []
   | _ => []) ++
  (match s with
   | c1 :: c2 :: c3 :: r =>
     if isDigitCh c1 && isDigitCh c2 && isDigitCh c3 then [([c1, c2, c3], r)] else []
   | _ => []) ++
  (match s with
   | c1 :: c2 :: r => if isDigitCh c1 && isDigitCh c2 then [([c1, c2], r)] else []
   | _ => [])

/-- Anchored match of `DATE_RE = (\d{1,2}/\d{1,2}/\d{2,4})` at the head
of the input: the three captured digit groups. -/
def dateReHere (s : Str) : Option (Str × Str × Str) :=
  firstSome (digits12 s) fun ar =>
    slashThen (fun r2 =>
      firstSome (digits12 r2) fun br =>
        slashThen (fun r4 => firstSome (digits24 r4) fun cr => some (ar.1, br.1, cr.1))
          br.2)
      ar.2

/-- `DATE_RE.search`: leftmost match. -/
def dateReSearch : Str → Option (Str × Str × Str)
  | [] => none
  | c :: rest =>
    match dateReHere (c :: rest) with
    | some g => some g
    | none => dateReSearch rest

/-- `parse_mmddyy_or_yyyy`: strict `%m/%d/%y`, then `%m/%d/%Y`, then the
lenient `DATE_RE` fallback with `2000 + YY` on two-digit years. -/
def parse_mmddyy_or_yyyy (s0 : Str) : Option Date :=
  let s := stripChars s0
  match (strictMDY 2 s).bind fun v => mkDate? (pivotY2 v.2.2) v.1 v.2.1 with
  | some dt => some dt
  | none =>
    match (strictMDY 4 s).bind fun v => mkDate? v.2.2 v.1 v.2.1 with
    | some dt => some dt
    | none =>
      match dateReSearch s with
      | none => none
      | some g =>
        let yyyy := if g.2.2.length = 2 then 2000 + toNatDigits g.2.2 else toNatDigits g.2.2
        mkDate? yyyy (toNatDigits g.1) (toNatDigits g.2.1)

/-- `parse_any_date_field`: extract the first `DATE_RE` match and parse
it (the matched substring is `a/b/c` for digit groups `a`, `b`, `c`). -/
def parse_any_date_field (s : Str) : Option Date :=
  if s = [] then none
  else
    match dateReSearch s with
    | none => none
    | some g => parse_mmddyy_or_yyyy (g.1 ++ '/' :: g.2.1 ++ '/' :: g.2.2)

/-- One guarded priority step of `best_row_date`. -/
def tryIdx (row : Row) (i : Nat) : Option Date :=
  if i < row.length then parse_any_date_field (row.getD i []) else none

/-- `best_row_date`: first parseable of Date Reported (0), Date From (6),
Date To (7), each access guarded by a length check. -/
def best_row_date (row : Row) : Option Date :=
  match tryIdx row 0 with
  | some d => some d
  | none =>
    match tryIdx row 6 with
    | some d => some d
    | none => tryIdx row 7

/-! ## The csv store (`write_csv`, `load_existing_csv`) -/

/-- QUOTE_MINIMAL: a field is quoted iff it contains the delimiter, the
quote character, or a line-terminator character. -/
def needsQuote (f : Str) : Bool := f.any fun c => c = ',' || c = '"' || c = '\r' || c = '\n'

/-- csv field serialisation (doubled quote characters when quoted). -/
def encodeField (f : Str) : Str :=
  if needsQuote f then
    '"' :: (f.flatMap fun c => if c = '"' then ['"', '"'] else [c]) ++ ['"']
  else f

/-- Comma-join of serialised fields. -/
def joinComma : List Str → Str
  | [] => []
  | [f] => f
  | f :: g :: t => f ++ ',' :: joinComma (g :: t)

/-- `csv.writer.writerow`: comma-joined fields plus CRLF. -/
def encodeRow (r : Row) : Str := joinComma (r.map encodeField) ++ ['\r', '\n']

/-- `write_csv`: header row followed by all rows. -/
def writeCsvContent (rows : List Row) : Str := (HEADERS :: rows).flatMap encodeRow

/-- States of the csv reader. -/
inductive PMode where
  | startRec
  | eatNL
  | startField
  | inField
  | inQuoted
  | quoteInQuoted
deriving DecidableEq

/-- The csv reader state machine (excel dialect, doubled quotes,
non-strict), over the raw character stream; `f` is the field in
progress, `r` the completed fields of the record in progress. -/
def runParse : Str → PMode → Str → Row → List Row
  | [], .startRec, _, _ => []
  | [], .eatNL, _, _ => []
  | [], _, f, r => [r ++ [f]]
  | c :: rest, .startRec, _, _ =>
    if c = '"' then runParse rest .inQuoted [] []
    else if c = ',' then runParse rest .startField [] [[]]
    else if c = '\r' then [] :: runParse rest .eatNL [] []
    else if c = '\n' then [] :: runParse rest .startRec [] []
    else runParse rest .inField [c] []
  | c :: rest, .eatNL, _, _ =>
    if c = '\n' then runParse rest .startRec [] []
    else if c = '"' then runParse rest .inQuoted [] []
    else if c = ',' then runParse rest .startField [] [[]]
    else if c = '\r' then [] :: runParse rest .eatNL [] []
    else runParse rest .inField [c] []
  | c :: rest, .startField, _, r =>
    if c = '"' then runParse rest .inQuoted [] r
    else if c = ',' then runParse rest .startField [] (r ++ [[]])
    else if c = '\r' then (r ++ [[]]) :: runParse rest .eatNL [] []
    else if c = '\n' then (r ++ [[]]) :: runParse rest .startRec [] []
    else runParse rest .inField [c] r
  | c :: rest, .inField, f, r =>
    if c = ',' then runParse rest .startField [] (r ++ [f])
    else if c = '\r' then (r ++ [f]) :: runParse rest .eatNL [] []
    else if c = '\n' then (r ++ [f]) :: runParse rest .startRec [] []
    else runParse rest .inField (f ++ [c]) r
  | c :: rest, .inQuoted, f, r =>
    if c = '"' then runParse rest .quoteInQuoted f r
    else runParse rest .inQuoted (f ++ [c]) r
  | c :: rest, .quoteInQuoted, f, r =>
    if c = '"' then runParse rest .inQuoted (f ++ ['"']) r
    else if c = ',' then runParse rest .startField [] (r ++ [f])
    else if c = '\r' then (r ++ [f]) :: runParse rest .eatNL [] []
    else if c = '\n' then (r ++ [f]) :: runParse rest .startRec [] []
    else runParse rest .inField (f ++ [c]) r

/-- All csv records of a file content. -/
def parseRecords (s : Str) : List Row := runParse s .startRec [] []

/-- The loaded row list of `load_existing_csv`: skip the first record
(`next(reader, None)`), drop empty records (`if not row: continue`). -/
def load_existing_rows (content : Str) : List Row :=
  ((parseRecords content).drop 1).filter (· ≠ [])

/-- The `Event #` value used by the dedup loop:
`row[IDX_EVENT] if len(row) > IDX_EVENT else ""`. -/
def evOf (r : Row) : Str := if IDX_EVENT < r.length then r.getD IDX_EVENT [] else []

/-- The existing `event_ids` set collected by `load_existing_csv`
(`if len(row) > IDX_EVENT and row[IDX_EVENT]`), as a list. -/
def eventIdsOf (rows : List Row) : List Str :=
  rows.filterMap fun r =>
    if IDX_EVENT < r.length && r.getD IDX_EVENT [] ≠ [] then some (r.getD IDX_EVENT []) else none

/-- One step of the latest-date fold:
`if d and (latest is None or d > latest): latest = d`. -/
def latestStep (acc : Option Date) (r : Row) : Option Date :=
  match best_row_date r with
  | none => acc
  | some d =>
    match acc with
    | none => some d
    | some l => some (if l.ltB d then d else l)

/-- The `latest` date computed by `load_existing_csv`. -/
def latestOf (rows : List Row) : Option Date := rows.foldl latestStep none

/-! ## The keyed (JSON) store (`write_json`) -/

/-- The dict built per row:
`{HEADERS[i]: (row[i] if i < len(row) else "") for i in range(len(HEADERS))}`. -/
def jsonRecord (r : Row) : List (Str × Str) :=
  (List.range HEADERS.length).map fun i => (HEADERS.getD i [], r.getD i [])

def hexCh (n : Nat) : Char := if n < 10 then Char.ofNat (48 + n) else Char.ofNat (87 + n)

/-- JSON escaping with `ensure_ascii` (stdlib `json`). -/
def jsonEscapeChar (c : Char) : Str :=
  if c = '"' then ['\\', '"']
  else if c = '\\' then ['\\', '\\']
  else if c = '\n' then ['\\', 'n']
  else if c = '\r' then ['\\', 'r']
  else if c = '\t' then ['\\', 't']
  else if c.toNat < 32 || 126 < c.toNat then
    if c.toNat < 65536 then
      '\\' :: 'u' :: [hexCh (c.toNat / 4096 % 16), hexCh (c.toNat / 256 % 16),
        hexCh (c.toNat / 16 % 16), hexCh (c.toNat % 16)]
    else
      let n := c.toNat - 65536
      let hi := 55296 + n / 1024
      let lo := 56320 + n % 1024
      '\\' :: 'u' :: [hexCh (hi / 4096 % 16), hexCh (hi / 256 % 16),
        hexCh (hi / 16 % 16), hexCh (hi % 16)] ++
      '\\' :: 'u' :: [hexCh (lo / 4096 % 16), hexCh (lo / 256 % 16),
        hexCh (lo / 16 % 16), hexCh (lo % 16)]
  else [c]

def jsonStr (s : Str) : Str := '"' :: s.flatMap jsonEscapeChar ++ ['"']

/-- One serialised object of `json.dump(..., indent=2)`. -/
def jsonObjOf (pairs : List (Str × Str)) : Str :=
  '{' :: '\n' ::
    List.intercalate [',', '\n']
      (pairs.map fun p => ' ' :: ' ' :: ' ' :: ' ' :: (jsonStr p.1 ++ ':' :: ' ' :: jsonStr p.2)) ++
  '\n' :: ' ' :: ' ' :: ['}']

/-- `write_json`: the serialised list of per-row objects. -/
def writeJsonContent (rows : List Row) : Str :=
  if rows = [] then ['[', ']']
  else
    '[' :: '\n' ::
      List.intercalate [',', '\n'] (rows.map fun r => ' ' :: ' ' :: jsonObjOf (jsonRecord r)) ++
    '\n' :: [']']

/-! ## The reconciler (`backfill_incremental`) -/

/-- The dedup loop of lines 239-247: skip a row iff its event id is
non-empty and already seen; accepted non-empty ids are added to `seen`. -/
def dedup (seen : List Str) : List Row → List Row
  | [] => []
  | r :: rs =>
    if evOf r ≠ [] && evOf r ∈ seen then dedup seen rs
    else r :: dedup (if evOf r ≠ [] then evOf r :: seen else seen) rs

/-- The sort key of line 255-256: best row date, defaulting to today. -/
def rowDt (today : Date) (r : Row) : Date := (best_row_date r).getD today

/-- Stable insertion of a row into a descending-by-key sorted list:
the row goes before the first element whose key is at most its own,
which keeps equal-key elements in input order. -/
def insertDesc (today : Date) (x : Row) : List Row → List Row
  | [] => [x]
  | y :: ys =>
    if (rowDt today y).leB (rowDt today x) then x :: y :: ys
    else y :: insertDesc today x ys

/-- `unique_new_rows.sort(key=row_dt, reverse=True)`: Python's stable
descending sort, modelled by the (stable) insertion sort. -/
def sortDesc (today : Date) : List Row → List Row
  | [] => []
  | x :: xs => insertDesc today x (sortDesc today xs)

/-- Reference formulation of the dedup contract: a row is kept iff its
event id is empty, or it is neither among the initially seen ids nor
among the event ids of the input rows already processed (`pre`). -/
def dedupSpecAux (seen0 : List Str) (pre : List Row) : List Row → List Row
  | [] => []
  | r :: rs =>
    if evOf r ≠ [] ∧ (evOf r ∈ seen0 ∨ evOf r ∈ pre.map evOf) then
      dedupSpecAux seen0 (pre ++ [r]) rs
    else r :: dedupSpecAux seen0 (pre ++ [r]) rs

/-- Reference dedup over a whole input list. -/
def dedupSpec (seen0 : List Str) (rows : List Row) : List Row := dedupSpecAux seen0 [] rows

/-- The persisted state: contents of the csv and json files (`none` =
the file does not exist). -/
structure FS where
  csv : Option Str
  json : Option Str
deriving DecidableEq

/-- Lines 203-206: create the csv file with just the header row when it
does not exist. -/
def ensureCsv (fs : FS) : FS :=
  if fs.csv.isSome then fs else { fs with csv := some (writeCsvContent []) }

/-- The rows loaded by `load_existing_csv` during a run (the file exists
after `ensureCsv`). -/
def archRows (fs : FS) : List Row := load_existing_rows (((ensureCsv fs).csv).getD [])

/-- Lines 212-216: the first date to check. -/
def startOf (rows : List Row) : Date :=
  match latestOf rows with
  | some l => l.succ
  | none => EARLIEST_DATE

/-- `backfill_incremental`, one run: given the fetch oracle (per-day
normalised rows), today's date, and the persisted state, returns the new
persisted state, the list of days fetched, and the row sequence written
(if a write happened). -/
def backfill (fetch : Date → List Row) (today : Date) (fs : FS) :
    FS × List Date × Option (List Row) :=
  let fs1 := ensureCsv fs
  let rows := archRows fs
  let start := startOf rows
  if start.leB today then
    let dates := daterange start today
    let allNew := dates.flatMap fetch
    if allNew = [] then (fs1, dates, none)
    else
      let uniq := dedup (eventIdsOf rows) allNew
      if uniq = [] then (fs1, dates, none)
      else
        let combined := sortDesc today uniq ++ rows
        ({ csv := some (writeCsvContent combined), json := some (writeJsonContent combined) },
         dates, some combined)
  else (fs1, [], none)

/-- The rows fetched during a run: the per-day results over the days the
run actually checked. -/
def fetchedRows (fetch : Date → List Row) (today : Date) (fs : FS) : List Row :=
  ((backfill fetch today fs).2.1).flatMap fetch

/-- The fetched rows surviving deduplication against the loaded archive. -/
def survivors (fetch : Date → List Row) (today : Date) (fs : FS) : List Row :=
  dedup (eventIdsOf (archRows fs)) (fetchedRows fetch today fs)

/-- csv serialisation collapses the empty record and the record with one
empty unquoted field to an empty line, which the reader returns as the
empty record; every other record round-trips unchanged. -/
def canonRow (r : Row) : Row := if r = [] ∨ r = [[]] then [] else r

/-- Rows that survive a csv write/read cycle as themselves. -/
def ndRow (r : Row) : Bool := ¬(r = [] ∨ r = [[]])

/-- The decimal digit character of `n < 10`. -/
def digCh (n : Nat) : Char := Char.ofNat (48 + n)

/-- Two-digit zero-padded decimal rendering. -/
def twoDig (n : Nat) : Str := [digCh (n / 10), digCh (n % 10)]

/-- Four-digit zero-padded decimal rendering. -/
def fourDig (n : Nat) : Str :=
  [digCh (n / 1000), digCh (n / 100 % 10), digCh (n / 10 % 10), digCh (n % 10)]

/-- The canonical `MM/DD/YY` rendering of a date. -/
def render2 (m d y : Nat) : Str := twoDig m ++ '/' :: twoDig d ++ '/' :: twoDig y

/-- The canonical `MM/DD/YYYY` rendering of a date. -/
def render4 (m d y : Nat) : Str := twoDig m ++ '/' :: twoDig d ++ '/' :: fourDig y

/-- Whether the string contains a digit-slash-digit pattern anywhere. -/
def hasDSD : Str → Bool
  | a :: b :: c :: rest => (isDigitCh a && b = '/' && isDigitCh c) || hasDSD (b :: c :: rest)
  | _ => false

/-- The latest-date fold combines the accumulator and a new candidate by
keeping the strictly later date (first on ties). -/
def optMax (a b : Option Date) : Option Date :=
  match b with
  | none => a
  | some d =>
    match a with
    | none => some d
    | some l => some (if l.ltB d then d else l)

/-- Example row: eleven empty fields (in particular an empty event id
and no parseable date). -/
def exRow : Row := List.replicate 11 []

/-- Example row with a non-empty event id and a parseable reported
date. -/
def exRow2 : Row :=
  ["12/04/2023".toList, "E1".toList, [], [], [], [], [], [], [], [], []]

/-- Example fetch oracle: one empty-id row on the earliest day. -/
def exFetch : Date → List Row := fun d => if d = EARLIEST_DATE then [exRow] else []

/-- Example fetch oracle: one id-carrying row on the earliest day. -/
def exFetch2 : Date → List Row := fun d => if d = EARLIEST_DATE then [exRow2] else []

/-- Example state: both files exist, csv holding just the header. -/
def exFS : FS := ⟨some (writeCsvContent []), some (writeJsonContent [])⟩

/-- Example row dated the day after the earliest date, with event id
`E2`. -/
def exRow3 : Row :=
  ["12/05/2023".toList, "E2".toList, [], [], [], [], [], [], [], [], []]

/-- Example fetch oracle: one id-carrying row on 2023-12-05. -/
def exFetch3 : Date → List Row := fun d => if d = ⟨2023, 12, 5⟩ then [exRow3] else []

/-- Example state: both files exist, the archive holding one record
dated 2023-12-04 with event id `E1`. -/
def exFS2 : FS := ⟨some (writeCsvContent [exRow2]), some (writeJsonContent [exRow2])⟩

/-! # Date order lemmas -/

theorem Date.leB_iff {a b : Date} : a.leB b = true ↔
    (a.y < b.y ∨ (a.y = b.y ∧ (a.m < b.m ∨ (a.m = b.m ∧ a.d ≤ b.d)))) := by
  simp [Date.leB]

theorem Date.ltB_iff {a b : Date} : a.ltB b = true ↔
    (a.y < b.y ∨ (a.y = b.y ∧ (a.m < b.m ∨ (a.m = b.m ∧ a.d < b.d)))) := by
  simp [Date.ltB]

theorem Date.leB_refl (a : Date) : a.leB a = true := by
  simp [Date.leB_iff]

theorem Date.leB_trans {a b c : Date} (h1 : a.leB b = true) (h2 : b.leB c = true) :
    a.leB c = true := by
  rw [Date.leB_iff] at *
  omega

theorem Date.leB_total (a b : Date) : a.leB b = true ∨ b.leB a = true := by
  rw [Date.leB_iff, Date.leB_iff]
  omega

theorem Date.leB_antisymm {a b : Date} (h1 : a.leB b = true) (h2 : b.leB a = true) :
    a = b := by
  rw [Date.leB_iff] at *
  cases a
  cases b
  simp only [Date.mk.injEq]
  simp_all
  omega

theorem Date.ltB_of_leB_ne {a b : Date} (h1 : a.leB b = true) (h2 : a ≠ b) :
    a.ltB b = true := by
  rw [Date.leB_iff] at h1
  rw [Date.ltB_iff]
  cases a
  cases b
  simp_all [Date.mk.injEq]
  omega

theorem Date.not_leB {a b : Date} (h : ¬ a.leB b = true) : b.ltB a = true := by
  rw [Date.leB_iff] at h
  rw [Date.ltB_iff]
  omega

theorem Date.leB_of_ltB {a b : Date} (h : a.ltB b = true) : a.leB b = true := by
  rw [Date.ltB_iff] at h
  rw [Date.leB_iff]
  omega

theorem Date.not_ltB_self (a : Date) : a.ltB a = true → False := by
  rw [Date.ltB_iff]
  omega

/-! # C1: deduplication -/

theorem dedup_cons_skip {r : Row} {rs : List Row} {seen : List Str}
    (h1 : evOf r ≠ []) (h2 : evOf r ∈ seen) :
    dedup seen (r :: rs) = dedup seen rs := by
  simp only [dedup]
  rw [if_pos (by simp [h1, h2])]

theorem dedup_cons_keep {r : Row} {rs : List Row} {seen : List Str}
    (h : evOf r = [] ∨ evOf r ∉ seen) :
    dedup seen (r :: rs) =
      r :: dedup (if evOf r ≠ [] then evOf r :: seen else seen) rs := by
  simp only [dedup]
  rcases h with h | h
  · rw [if_neg (by simp [h])]
  · rw [if_neg (by simp [h])]

theorem specAux_cons_skip {seen0 : List Str} {pre : List Row} {r : Row} {rs : List Row}
    (h : evOf r ≠ [] ∧ (evOf r ∈ seen0 ∨ evOf r ∈ pre.map evOf)) :
    dedupSpecAux seen0 pre (r :: rs) = dedupSpecAux seen0 (pre ++ [r]) rs := by
  simp only [dedupSpecAux]
  rw [if_pos h]

theorem specAux_cons_keep {seen0 : List Str} {pre : List Row} {r : Row} {rs : List Row}
    (h : ¬(evOf r ≠ [] ∧ (evOf r ∈ seen0 ∨ evOf r ∈ pre.map evOf))) :
    dedupSpecAux seen0 pre (r :: rs) = r :: dedupSpecAux seen0 (pre ++ [r]) rs := by
  simp only [dedupSpecAux]
  rw [if_neg h]

theorem dedup_subset : ∀ (rows : List Row) (seen : List Str) {x : Row},
    x ∈ dedup seen rows → x ∈ rows := by
  intro rows
  induction rows with
  | nil => intro seen x h; simp [dedup] at h
  | cons r rs ih =>
    intro seen x h
    simp only [dedup] at h
    split at h
    · exact List.mem_cons_of_mem _ (ih seen h)
    · rcases List.mem_cons.1 h with h' | h'
      · exact h' ▸ List.mem_cons_self _ _
      · exact List.mem_cons_of_mem _ (ih _ h')

/-- Helper: a surviving row's non-empty event id was not initially seen. -/
theorem mem_dedup_not_seen : ∀ (rows : List Row) (seen : List Str) (x : Row),
    x ∈ dedup seen rows → evOf x = [] ∨ evOf x ∉ seen := by
  intro rows
  induction rows with
  | nil => intro seen x h; simp [dedup] at h
  | cons r rs ih =>
    intro seen x h
    simp only [dedup] at h
    split at h
    · exact ih seen x h
    · rename_i hcond
      rcases List.mem_cons.1 h with h' | h'
      · subst h'
        by_cases he : evOf x = []
        · exact Or.inl he
        · refine Or.inr fun hs => hcond ?_
          simp [he, hs]
      · rcases ih _ x h' with h2 | h2
        · exact Or.inl h2
        · refine Or.inr fun hs => h2 ?_
          by_cases hr : evOf r ≠ []
          · rw [if_pos hr]; exact List.mem_cons_of_mem _ hs
          · rw [if_neg hr]; exact hs

/-- Helper: every non-empty event id of the input is either initially
seen or appears among the survivors' event ids. -/
theorem dedup_cover : ∀ (rows : List Row) (seen : List Str) (x : Row),
    x ∈ rows → evOf x ≠ [] →
    evOf x ∈ seen ∨ evOf x ∈ (dedup seen rows).map evOf := by
  intro rows
  induction rows with
  | nil => intro seen x h; simp at h
  | cons r rs ih =>
    intro seen x hx hne
    simp only [dedup]
    split
    · rename_i hcond
      rcases List.mem_cons.1 hx with h' | h'
      · subst h'
        simp only [Bool.and_eq_true, decide_eq_true_eq] at hcond
        exact Or.inl hcond.2
      · exact ih seen x h' hne
    · rcases List.mem_cons.1 hx with h' | h'
      · subst h'
        exact Or.inr (by simp)
      · rcases ih (if evOf r ≠ [] then evOf r :: seen else seen) x h' hne with h2 | h2
        · split at h2
          · rcases List.mem_cons.1 h2 with h3 | h3
            · exact Or.inr (by simp [h3])
            · exact Or.inl h3
          · exact Or.inl h2
        · exact Or.inr (List.mem_cons_of_mem _ h2)

/-- Helper: if every input row has a non-empty, already-seen event id,
deduplication drops everything. -/
theorem dedup_all_skip : ∀ (rows : List Row) (seen : List Str),
    (∀ r ∈ rows, evOf r ≠ [] ∧ evOf r ∈ seen) → dedup seen rows = [] := by
  intro rows
  induction rows with
  | nil => intro seen _; simp [dedup]
  | cons r rs ih =>
    intro seen h
    have hr := h r (List.mem_cons_self _ _)
    simp only [dedup]
    rw [if_pos (by simp [hr.1, hr.2])]
    exact ih seen fun x hx => h x (List.mem_cons_of_mem _ hx)

/-- Helper: the executable dedup agrees with the reference formulation
relative to any seen-set matching the initial ids plus the processed
prefix's ids. -/
theorem dedup_eq_specAux (seen0 : List Str) :
    ∀ (rs : List Row) (pre : List Row) (seen : List Str),
    (∀ e : Str, e ≠ [] → (e ∈ seen ↔ e ∈ seen0 ∨ e ∈ pre.map evOf)) →
    dedup seen rs = dedupSpecAux seen0 pre rs := by
  intro rs
  induction rs with
  | nil => intro pre seen _; simp [dedup, dedupSpecAux]
  | cons r rs ih =>
    intro pre seen hinv
    have hmem : ∀ e : Str, e ∈ (pre ++ [r]).map evOf ↔ e ∈ pre.map evOf ∨ e = evOf r := by
      intro e
      simp
    by_cases hne : evOf r = []
    · -- empty id: kept by both, seen-set unchanged
      rw [dedup_cons_keep (Or.inl hne), if_neg (by simp [hne]),
        specAux_cons_keep (by simp [hne])]
      refine congrArg _ (ih (pre ++ [r]) seen fun e he => ?_)
      rw [hinv e he, hmem e]
      constructor
      · rintro (h | h)
        · exact Or.inl h
        · exact Or.inr (Or.inl h)
      · rintro (h | h | h)
        · exact Or.inl h
        · exact Or.inr h
        · exact absurd (h.trans hne) he
    · by_cases hs : evOf r ∈ seen
      · -- non-empty seen id: skipped by both
        rw [dedup_cons_skip hne hs, specAux_cons_skip ⟨hne, (hinv _ hne).1 hs⟩]
        refine ih (pre ++ [r]) seen fun e he => ?_
        rw [hinv e he, hmem e]
        constructor
        · rintro (h | h)
          · exact Or.inl h
          · exact Or.inr (Or.inl h)
        · rintro (h | h | h)
          · exact Or.inl h
          · exact Or.inr h
          · subst h; exact ((hinv _ hne).1 hs).imp id id
      · -- new non-empty id: kept by both, id added to seen
        have hns : ¬(evOf r ∈ seen0 ∨ evOf r ∈ pre.map evOf) := fun h => hs ((hinv _ hne).2 h)
        rw [dedup_cons_keep (Or.inr hs), if_pos hne,
          specAux_cons_keep (fun h => hns h.2)]
        refine congrArg _ (ih (pre ++ [r]) (evOf r :: seen) fun e he => ?_)
        rw [List.mem_cons, hinv e he, hmem e]
        constructor
        · rintro (h | h | h)
          · exact Or.inr (Or.inr h)
          · exact Or.inl h
          · exact Or.inr (Or.inl h)
        · rintro (h | h | h)
          · exact Or.inr (Or.inl h)
          · exact Or.inr (Or.inr h)
          · exact Or.inl h

/-- Helper: survivors' non-empty event ids are pairwise distinct. -/
theorem dedup_pairwise : ∀ (rows : List Row) (seen : List Str),
    (dedup seen rows).Pairwise (fun a b => evOf a = [] ∨ evOf a ≠ evOf b) := by
  intro rows
  induction rows with
  | nil => intro seen; simp [dedup]
  | cons r rs ih =>
    intro seen
    simp only [dedup]
    split
    · exact ih seen
    · refine List.pairwise_cons.2 ⟨fun b hb => ?_, ih _⟩
      by_cases hne : evOf r = []
      · exact Or.inl hne
      · rw [if_pos hne] at hb
        rcases mem_dedup_not_seen _ _ _ hb with h2 | h2
        · exact Or.inr fun he => hne (he ▸ h2)
        · exact Or.inr fun he => h2 (he ▸ List.mem_cons_self _ _)

/-- Helper: rows with empty event ids all survive, in order. -/
theorem dedup_filter_empty : ∀ (rows : List Row) (seen : List Str),
    (dedup seen rows).filter (fun r => evOf r = []) = rows.filter (fun r => evOf r = []) := by
  intro rows
  induction rows with
  | nil => intro seen; simp [dedup]
  | cons r rs ih =>
    intro seen
    simp only [dedup]
    split
    · rename_i hcond
      simp only [Bool.and_eq_true, decide_eq_true_eq] at hcond
      rw [List.filter_cons_of_neg (by simp [hcond.1])]
      exact ih seen
    · simp only [List.filter_cons]
      rw [ih]

/-- C1.  Deduplication: a newly fetched record survives iff its event id
is empty, or it is neither among the archive's non-empty event ids nor
among the event ids of earlier-processed fetched records; consequently
survivors' non-empty event ids are pairwise distinct (only the first of
any colliding pair is kept) and every record with an empty event id is
kept. -/
theorem C1_dedup_characterization (seen : List Str) (rows : List Row) :
    dedup seen rows = dedupSpec seen rows ∧
    (dedup seen rows).Pairwise (fun a b => evOf a = [] ∨ evOf a ≠ evOf b) ∧
    (dedup seen rows).filter (fun r => evOf r = []) = rows.filter (fun r => evOf r = []) := by
  refine ⟨?_, dedup_pairwise rows seen, dedup_filter_empty rows seen⟩
  exact dedup_eq_specAux seen rows [] seen (by simp)

/-! # C9: guarded access on short rows -/

/-- C9.  Short-row totality: with fewer cells than the schema width,
the event-id read yields the empty string, representative-date selection
skips the out-of-range date fields (falling back on the in-range ones),
and the keyed-form record still has all eleven keys with missing fields
filled by the empty string; every access is guarded, so none can fail. -/
theorem C9_short_row_totality (row : Row) :
    (row.length ≤ IDX_EVENT → evOf row = []) ∧
    (row.length ≤ 6 → best_row_date row = tryIdx row 0) ∧
    (jsonRecord row).length = HEADERS.length ∧
    (∀ i, i < HEADERS.length → row.length ≤ i →
      (jsonRecord row).getD i ([], []) = (HEADERS.getD i [], [])) := by
  refine ⟨fun h => ?_, fun h => ?_, ?_, fun i hi hrow => ?_⟩
  · simp only [evOf]
    rw [if_neg (by omega)]
  · have h6 : tryIdx row 6 = none := by
      simp only [tryIdx]
      rw [if_neg (by omega)]
    have h7 : tryIdx row 7 = none := by
      simp only [tryIdx]
      rw [if_neg (by omega)]
    cases htry : tryIdx row 0 <;> simp [best_row_date, htry, h6, h7]
  · simp [jsonRecord]
  · simp only [jsonRecord, List.getD_eq_getElem?_getD, List.getElem?_map,
      List.getElem?_range hi, Option.map_some', Option.getD_some]
    simp [List.getElem?_eq_none hrow]

/-- Witness for C9 at the empty row. -/
theorem C9_short_row_totality_witness :
    evOf [] = [] ∧ best_row_date [] = tryIdx [] 0 ∧
    (jsonRecord []).length = HEADERS.length ∧
    (jsonRecord []).getD 3 ([], []) = (HEADERS.getD 3 [], []) := by
  obtain ⟨h1, h2, h3, h4⟩ := C9_short_row_totality []
  exact ⟨h1 (by decide), h2 (by decide), h3, h4 3 (by decide) (by decide)⟩

/-! # C5: the two persisted forms -/

set_option maxRecDepth 10000 in
/-- C5 counterexample: when the csv file is missing, a run that finds no
new data creates the csv file (header-only) but never touches the json
file, so the row-oriented form is created without the keyed form. -/
theorem C5_counterexample :
    ((backfill (fun _ => []) EARLIEST_DATE ⟨none, none⟩).1.csv ≠ none) ∧
    ((backfill (fun _ => []) EARLIEST_DATE ⟨none, none⟩).1.json = none) := by
  decide

/-! # C6 counterexample: the two-digit-year pivot -/

set_option maxRecDepth 4000 in
/-- C6 counterexample: `01/02/99` is a valid `MM/DD/YY` string and
`2000 + 99 = 2099` names a valid calendar date, yet the parser returns
1999-01-02 (the `strptime` pivot), not 2099-01-02. -/
theorem C6_counterexample :
    parse_mmddyy_or_yyyy (render2 1 2 99) = some ⟨1999, 1, 2⟩ ∧
    parse_mmddyy_or_yyyy (render2 1 2 99) ≠ some ⟨2000 + 99, 1, 2⟩ ∧
    isValidDate (2000 + 99) 1 2 = true := by
  decide

/-! # Shape of a run -/

/-- Unfolding of `backfill` into its explicit decision tree. -/
theorem backfill_unfold (fetch : Date → List Row) (today : Date) (fs : FS) :
    backfill fetch today fs =
    if (startOf (archRows fs)).leB today then
      if ((daterange (startOf (archRows fs)) today).flatMap fetch) = [] then
        (ensureCsv fs, daterange (startOf (archRows fs)) today, none)
      else if dedup (eventIdsOf (archRows fs))
          ((daterange (startOf (archRows fs)) today).flatMap fetch) = [] then
        (ensureCsv fs, daterange (startOf (archRows fs)) today, none)
      else
        (⟨some (writeCsvContent (sortDesc today (dedup (eventIdsOf (archRows fs))
            ((daterange (startOf (archRows fs)) today).flatMap fetch)) ++ archRows fs)),
          some (writeJsonContent (sortDesc today (dedup (eventIdsOf (archRows fs))
            ((daterange (startOf (archRows fs)) today).flatMap fetch)) ++ archRows fs))⟩,
         daterange (startOf (archRows fs)) today,
         some (sortDesc today (dedup (eventIdsOf (archRows fs))
            ((daterange (startOf (archRows fs)) today).flatMap fetch)) ++ archRows fs))
    else (ensureCsv fs, [], none) := rfl

/-- The days a run fetches. -/
theorem backfill_dates (fetch : Date → List Row) (today : Date) (fs : FS) :
    (backfill fetch today fs).2.1 =
      if (startOf (archRows fs)).leB today then daterange (startOf (archRows fs)) today
      else [] := by
  rw [backfill_unfold]
  split
  · split
    · rfl
    · split <;> rfl
  · rfl

/-- A run that does not write leaves the state at `ensureCsv fs`. -/
theorem backfill_none_shape {fetch : Date → List Row} {today : Date} {fs : FS}
    (h : (backfill fetch today fs).2.2 = none) :
    (backfill fetch today fs).1 = ensureCsv fs := by
  rw [backfill_unfold] at h ⊢
  by_cases h1 : (startOf (archRows fs)).leB today = true
  · rw [if_pos h1] at h ⊢
    by_cases h2 : (daterange (startOf (archRows fs)) today).flatMap fetch = []
    · rw [if_pos h2]
    · rw [if_neg h2] at h ⊢
      by_cases h3 : dedup (eventIdsOf (archRows fs))
          ((daterange (startOf (archRows fs)) today).flatMap fetch) = []
      · rw [if_pos h3]
      · rw [if_neg h3] at h
        simp at h
  · rw [if_neg h1]

/-- The survivors of a run are the deduplicated fetched rows of the
window actually checked. -/
theorem survivors_eq (fetch : Date → List Row) (today : Date) (fs : FS) :
    survivors fetch today fs =
      if (startOf (archRows fs)).leB today then
        dedup (eventIdsOf (archRows fs))
          ((daterange (startOf (archRows fs)) today).flatMap fetch)
      else [] := by
  unfold survivors fetchedRows
  rw [backfill_dates]
  split
  · rfl
  · simp [dedup]

/-- A run that writes wrote exactly the sorted survivors prepended to
the loaded rows, to both files. -/
theorem backfill_write_shape {fetch : Date → List Row} {today : Date} {fs : FS} {w : List Row}
    (h : (backfill fetch today fs).2.2 = some w) :
    w = sortDesc today (survivors fetch today fs) ++ archRows fs ∧
    survivors fetch today fs ≠ [] ∧
    (startOf (archRows fs)).leB today = true ∧
    (backfill fetch today fs).1 =
      ⟨some (writeCsvContent w), some (writeJsonContent w)⟩ := by
  have hs := survivors_eq fetch today fs
  rw [backfill_unfold] at h ⊢
  by_cases h1 : (startOf (archRows fs)).leB today = true
  · rw [if_pos h1] at h hs ⊢
    by_cases h2 : (daterange (startOf (archRows fs)) today).flatMap fetch = []
    · rw [if_pos h2] at h
      simp at h
    · rw [if_neg h2] at h ⊢
      by_cases h3 : dedup (eventIdsOf (archRows fs))
          ((daterange (startOf (archRows fs)) today).flatMap fetch) = []
      · rw [if_pos h3] at h
        simp at h
      · rw [if_neg h3] at h ⊢
        simp only [Option.some.injEq] at h
        subst h
        exact ⟨by rw [hs], by rw [hs]; exact h3, h1, rfl⟩
  · rw [if_neg h1] at h
    simp at h

/-! # The stable descending sort -/

theorem insertDesc_perm (today : Date) (x : Row) :
    ∀ l : List Row, (insertDesc today x l).Perm (x :: l) := by
  intro l
  induction l with
  | nil => simp [insertDesc]
  | cons y ys ih =>
    simp only [insertDesc]
    split
    · exact List.Perm.refl _
    · exact (List.Perm.cons y ih).trans (List.Perm.swap x y ys)

theorem sortDesc_perm (today : Date) :
    ∀ l : List Row, (sortDesc today l).Perm l := by
  intro l
  induction l with
  | nil => simp [sortDesc]
  | cons x xs ih =>
    exact (insertDesc_perm today x (sortDesc today xs)).trans (List.Perm.cons x ih)

theorem mem_insertDesc {today : Date} {x y : Row} {l : List Row}
    (h : y ∈ insertDesc today x l) : y = x ∨ y ∈ l := by
  have := (insertDesc_perm today x l).mem_iff.1 h
  simpa using this

theorem insertDesc_pairwise {today : Date} {x : Row} :
    ∀ {l : List Row},
    l.Pairwise (fun a b => (rowDt today b).leB (rowDt today a) = true) →
    (insertDesc today x l).Pairwise (fun a b => (rowDt today b).leB (rowDt today a) = true) := by
  intro l
  induction l with
  | nil => intro _; simp [insertDesc]
  | cons y ys ih =>
    intro h
    rcases List.pairwise_cons.1 h with ⟨hy, hys⟩
    simp only [insertDesc]
    split
    · rename_i hle
      refine List.pairwise_cons.2 ⟨?_, h⟩
      intro b hb
      rcases List.mem_cons.1 hb with hb | hb
      · subst hb; exact hle
      · exact Date.leB_trans (hy b hb) hle
    · rename_i hle
      refine List.pairwise_cons.2 ⟨?_, ih hys⟩
      intro b hb
      rcases mem_insertDesc hb with hb | hb
      · subst hb
        rcases Date.leB_total (rowDt today b) (rowDt today y) with h' | h'
        · exact h'
        · exact absurd h' hle
      · exact hy b hb

theorem sortDesc_pairwise (today : Date) :
    ∀ l : List Row,
    (sortDesc today l).Pairwise (fun a b => (rowDt today b).leB (rowDt today a) = true) := by
  intro l
  induction l with
  | nil => simp [sortDesc]
  | cons x xs ih => exact insertDesc_pairwise ih

/-! # C2, C5, C7 -/

theorem ensureCsv_json (fs : FS) : (ensureCsv fs).json = fs.json := by
  unfold ensureCsv
  split <;> rfl

theorem ensureCsv_of_some {fs : FS} (h : fs.csv.isSome) : ensureCsv fs = fs := by
  unfold ensureCsv
  rw [if_pos h]

/-- C2.  Merge ordering: whenever a run writes, the written sequence is
the stable descending sort (by representative date, defaulting to
today) of the dedup survivors, followed by the pre-existing loaded rows
unchanged; the sorted block is a permutation of the survivors and is
pairwise descending in the sort key. -/
theorem C2_merge_ordering (fetch : Date → List Row) (today : Date) (fs : FS)
    (w : List Row) (h : (backfill fetch today fs).2.2 = some w) :
    w = sortDesc today (survivors fetch today fs) ++ archRows fs ∧
    (sortDesc today (survivors fetch today fs)).Perm (survivors fetch today fs) ∧
    (sortDesc today (survivors fetch today fs)).Pairwise
      (fun a b => (rowDt today b).leB (rowDt today a) = true) := by
  refine ⟨(backfill_write_shape h).1, sortDesc_perm today _, sortDesc_pairwise today _⟩

set_option maxRecDepth 10000 in
/-- Witness for C2: a concrete run that writes one fetched row in front
of an empty archive. -/
theorem C2_merge_ordering_witness :
    [exRow2] = sortDesc EARLIEST_DATE (survivors exFetch2 EARLIEST_DATE exFS) ++
      archRows exFS ∧
    (sortDesc EARLIEST_DATE (survivors exFetch2 EARLIEST_DATE exFS)).Perm
      (survivors exFetch2 EARLIEST_DATE exFS) ∧
    (sortDesc EARLIEST_DATE (survivors exFetch2 EARLIEST_DATE exFS)).Pairwise
      (fun a b => (rowDt EARLIEST_DATE b).leB (rowDt EARLIEST_DATE a) = true) :=
  C2_merge_ordering exFetch2 EARLIEST_DATE exFS [exRow2] (by decide)

/-- C5 amended.  Apart from the startup initialisation that creates a
missing csv file with a header-only skeleton (which touches only the
csv), a run either writes both persisted forms from one and the same
record sequence, or writes neither. -/
theorem C5_both_or_neither (fetch : Date → List Row) (today : Date) (fs : FS) :
    ((backfill fetch today fs).1.csv = (ensureCsv fs).csv ∧
      (backfill fetch today fs).1.json = fs.json) ∨
    (∃ w, (backfill fetch today fs).2.2 = some w ∧
      (backfill fetch today fs).1.csv = some (writeCsvContent w) ∧
      (backfill fetch today fs).1.json = some (writeJsonContent w)) := by
  cases htr : (backfill fetch today fs).2.2 with
  | none =>
    left
    rw [backfill_none_shape htr]
    exact ⟨rfl, ensureCsv_json fs⟩
  | some w =>
    right
    exact ⟨w, rfl, by rw [(backfill_write_shape htr).2.2.2], by rw [(backfill_write_shape htr).2.2.2]⟩

/-- C7.  No-op frame: when the csv file already exists and no fetched
record survives deduplication (in particular when nothing is fetched),
the run leaves both persisted files exactly as they were: nothing is
rewritten. -/
theorem C7_noop_frame (fetch : Date → List Row) (today : Date) (fs : FS) (c : Str)
    (hcsv : fs.csv = some c) (hs : survivors fetch today fs = []) :
    (backfill fetch today fs).1 = fs ∧ (backfill fetch today fs).2.2 = none := by
  cases htr : (backfill fetch today fs).2.2 with
  | none =>
    refine ⟨?_, rfl⟩
    rw [backfill_none_shape htr, ensureCsv_of_some (by simp [hcsv])]
  | some w =>
    exact absurd hs (backfill_write_shape htr).2.1

set_option maxRecDepth 10000 in
/-- Witness for C7: a run over an existing header-only archive in which
the single checked day yields nothing. -/
theorem C7_noop_frame_witness :
    (backfill (fun _ => []) EARLIEST_DATE exFS).1 = exFS ∧
    (backfill (fun _ => []) EARLIEST_DATE exFS).2.2 = none :=
  C7_noop_frame (fun _ => []) EARLIEST_DATE exFS (writeCsvContent []) (by decide) (by decide)

/-! # csv round-trip

Step lemmas for the reader state machine, one per transition used by
the encoder image, then the field-, row- and file-level round trips. -/

theorem runParse_startRec_quote (rest : Str) :
    runParse ('"' :: rest) .startRec [] [] = runParse rest .inQuoted [] [] := rfl

theorem runParse_startRec_comma (rest : Str) :
    runParse (',' :: rest) .startRec [] [] = runParse rest .startField [] [[]] := rfl

theorem runParse_startRec_cr (rest : Str) :
    runParse ('\r' :: rest) .startRec [] [] = [] :: runParse rest .eatNL [] [] := rfl

theorem runParse_startRec_other (c : Char) (h1 : c ≠ '"') (h2 : c ≠ ',') (h3 : c ≠ '\r')
    (h4 : c ≠ '\n') (rest : Str) :
    runParse (c :: rest) .startRec [] [] = runParse rest .inField [c] [] := by
  simp only [runParse]
  rw [if_neg h1, if_neg h2, if_neg h3, if_neg h4]

theorem runParse_eatNL_nl (rest : Str) :
    runParse ('\n' :: rest) .eatNL [] [] = runParse rest .startRec [] [] := rfl

theorem runParse_startField_quote (rest : Str) (r : Row) :
    runParse ('"' :: rest) .startField [] r = runParse rest .inQuoted [] r := rfl

theorem runParse_startField_comma (rest : Str) (r : Row) :
    runParse (',' :: rest) .startField [] r = runParse rest .startField [] (r ++ [[]]) := rfl

theorem runParse_startField_cr (rest : Str) (r : Row) :
    runParse ('\r' :: rest) .startField [] r = (r ++ [[]]) :: runParse rest .eatNL [] [] := rfl

theorem runParse_startField_other (c : Char) (h1 : c ≠ '"') (h2 : c ≠ ',') (h3 : c ≠ '\r')
    (h4 : c ≠ '\n') (rest : Str) (r : Row) :
    runParse (c :: rest) .startField [] r = runParse rest .inField [c] r := by
  simp only [runParse]
  rw [if_neg h1, if_neg h2, if_neg h3, if_neg h4]

theorem runParse_inField_comma (rest : Str) (f : Str) (r : Row) :
    runParse (',' :: rest) .inField f r = runParse rest .startField [] (r ++ [f]) := rfl

theorem runParse_inField_cr (rest : Str) (f : Str) (r : Row) :
    runParse ('\r' :: rest) .inField f r = (r ++ [f]) :: runParse rest .eatNL [] [] := rfl

theorem runParse_inField_other (c : Char) (h2 : c ≠ ',') (h3 : c ≠ '\r') (h4 : c ≠ '\n')
    (rest : Str) (f : Str) (r : Row) :
    runParse (c :: rest) .inField f r = runParse rest .inField (f ++ [c]) r := by
  simp only [runParse]
  rw [if_neg h2, if_neg h3, if_neg h4]

theorem runParse_inQuoted_quote (rest : Str) (f : Str) (r : Row) :
    runParse ('"' :: rest) .inQuoted f r = runParse rest .quoteInQuoted f r := rfl

theorem runParse_inQuoted_other (c : Char) (h1 : c ≠ '"') (rest : Str) (f : Str) (r : Row) :
    runParse (c :: rest) .inQuoted f r = runParse rest .inQuoted (f ++ [c]) r := by
  simp only [runParse]
  rw [if_neg h1]

theorem runParse_qq_quote (rest : Str) (f : Str) (r : Row) :
    runParse ('"' :: rest) .quoteInQuoted f r = runParse rest .inQuoted (f ++ ['"']) r := rfl

theorem runParse_qq_comma (rest : Str) (f : Str) (r : Row) :
    runParse (',' :: rest) .quoteInQuoted f r = runParse rest .startField [] (r ++ [f]) := rfl

theorem runParse_qq_cr (rest : Str) (f : Str) (r : Row) :
    runParse ('\r' :: rest) .quoteInQuoted f r = (r ++ [f]) :: runParse rest .eatNL [] [] := rfl

/-- A run of line-safe characters is accumulated into the open field. -/
theorem runParse_inField_safe :
    ∀ (f : Str), (∀ c ∈ f, c ≠ ',' ∧ c ≠ '\r' ∧ c ≠ '\n') →
    ∀ (g : Str) (r : Row) (rest : Str),
    runParse (f ++ rest) .inField g r = runParse rest .inField (g ++ f) r := by
  intro f
  induction f with
  | nil => intro _ g r rest; simp
  | cons c f ih =>
    intro hsafe g r rest
    have hc := hsafe c (List.mem_cons_self _ _)
    rw [List.cons_append, runParse_inField_other c hc.1 hc.2.1 hc.2.2,
      ih (fun x hx => hsafe x (List.mem_cons_of_mem _ hx)) (g ++ [c]) r rest]
    simp

/-- A quote-escaped field body followed by the closing quote is
accumulated into the open quoted field. -/
theorem runParse_inQuoted_esc :
    ∀ (f : Str) (g : Str) (r : Row) (rest : Str),
    runParse ((f.flatMap fun c => if c = '"' then ['"', '"'] else [c]) ++ '"' :: rest)
        .inQuoted g r =
      runParse rest .quoteInQuoted (g ++ f) r := by
  intro f
  induction f with
  | nil =>
    intro g r rest
    rw [List.flatMap_nil, List.nil_append, runParse_inQuoted_quote, List.append_nil]
  | cons c f ih =>
    intro g r rest
    by_cases hc : c = '"'
    · subst hc
      rw [List.flatMap_cons, if_pos rfl]
      simp only [List.cons_append, List.append_assoc, List.nil_append]
      rw [runParse_inQuoted_quote, runParse_qq_quote, ih (g ++ ['"']) r rest]
      simp
    · rw [List.flatMap_cons, if_neg hc]
      simp only [List.cons_append, List.append_assoc, List.nil_append]
      rw [runParse_inQuoted_other c hc, ih (g ++ [c]) r rest]
      simp

theorem needsQuote_safe {f : Str} (hq : needsQuote f = false) :
    ∀ c ∈ f, c ≠ ',' ∧ c ≠ '"' ∧ c ≠ '\r' ∧ c ≠ '\n' := by
  intro c hc
  simp only [needsQuote, List.any_eq_false, Bool.or_eq_true, decide_eq_true_eq] at hq
  have := hq c hc
  tauto

/-- One serialised field followed by a comma, read from the start of a
field. -/
theorem runParse_field_comma (f : Str) (r : Row) (rest : Str) :
    runParse (encodeField f ++ ',' :: rest) .startField [] r =
      runParse rest .startField [] (r ++ [f]) := by
  by_cases hq : needsQuote f = true
  · simp only [encodeField, if_pos hq]
    simp only [List.cons_append, List.append_assoc, List.singleton_append, List.nil_append]
    rw [runParse_startField_quote, runParse_inQuoted_esc f [] r (',' :: rest),
      List.nil_append, runParse_qq_comma]
  · rw [Bool.not_eq_true] at hq
    have hsafe := needsQuote_safe hq
    simp only [encodeField, hq, Bool.false_eq_true, if_false]
    cases f with
    | nil =>
      rw [List.nil_append, runParse_startField_comma]
    | cons c f =>
      have hc := hsafe c (List.mem_cons_self _ _)
      rw [List.cons_append, runParse_startField_other c hc.2.1 hc.1 hc.2.2.1 hc.2.2.2,
        runParse_inField_safe f
          (fun x hx => (hsafe x (List.mem_cons_of_mem _ hx)).imp id (fun h => h.2)) [c] r
          (',' :: rest),
        runParse_inField_comma]
      simp

/-- One serialised field followed by the CRLF record terminator. -/
theorem runParse_field_eol (f : Str) (r : Row) (rest : Str) :
    runParse (encodeField f ++ '\r' :: '\n' :: rest) .startField [] r =
      (r ++ [f]) :: runParse rest .startRec [] [] := by
  by_cases hq : needsQuote f = true
  · simp only [encodeField, if_pos hq]
    simp only [List.cons_append, List.append_assoc, List.singleton_append, List.nil_append]
    rw [runParse_startField_quote, runParse_inQuoted_esc f [] r ('\r' :: '\n' :: rest),
      List.nil_append, runParse_qq_cr, runParse_eatNL_nl]
  · rw [Bool.not_eq_true] at hq
    have hsafe := needsQuote_safe hq
    simp only [encodeField, hq, Bool.false_eq_true, if_false]
    cases f with
    | nil =>
      rw [List.nil_append, runParse_startField_cr, runParse_eatNL_nl]
    | cons c f =>
      have hc := hsafe c (List.mem_cons_self _ _)
      rw [List.cons_append, runParse_startField_other c hc.2.1 hc.1 hc.2.2.1 hc.2.2.2,
        runParse_inField_safe f
          (fun x hx => (hsafe x (List.mem_cons_of_mem _ hx)).imp id (fun h => h.2)) [c] r
          ('\r' :: '\n' :: rest),
        runParse_inField_cr, runParse_eatNL_nl]
      simp

theorem joinComma_cons (x : Str) (l : List Str) :
    joinComma (x :: l) = x ++ (if l = [] then [] else ',' :: joinComma l) := by
  cases l with
  | nil => simp [joinComma]
  | cons y t => simp [joinComma]

/-- The comma-joined serialised fields of a non-empty field list, read
from the start of a field and terminated by CRLF, yield exactly those
fields. -/
theorem runParse_fields :
    ∀ (fs : List Str), fs ≠ [] → ∀ (r : Row) (rest : Str),
    runParse (joinComma (fs.map encodeField) ++ '\r' :: '\n' :: rest) .startField [] r =
      (r ++ fs) :: runParse rest .startRec [] [] := by
  intro fs
  induction fs with
  | nil => intro h; exact absurd rfl h
  | cons f t ih =>
    intro _ r rest
    cases t with
    | nil =>
      simp only [List.map_cons, List.map_nil, joinComma]
      rw [runParse_field_eol]
    | cons g t' =>
      rw [List.map_cons, joinComma_cons, if_neg (by simp)]
      simp only [List.append_assoc, List.cons_append]
      rw [runParse_field_comma f r (joinComma (List.map encodeField (g :: t')) ++
        '\r' :: '\n' :: rest)]
      rw [ih (by simp) (r ++ [f]) rest]
      simp

/-- On a first character that is not a record terminator, the reader
behaves identically from the record start and from a field start with
no pending fields. -/
theorem runParse_startRec_eq_startField (c : Char) (h3 : c ≠ '\r') (h4 : c ≠ '\n')
    (rest : Str) :
    runParse (c :: rest) .startRec [] [] = runParse (c :: rest) .startField [] [] := by
  by_cases h1 : c = '"'
  · subst h1
    rw [runParse_startRec_quote, runParse_startField_quote]
  · by_cases h2 : c = ','
    · subst h2
      rw [runParse_startRec_comma, runParse_startField_comma]
      simp
    · rw [runParse_startRec_other c h1 h2 h3 h4, runParse_startField_other c h1 h2 h3 h4]

/-- The serialised fields of a non-degenerate record start with a
character that is not a record terminator. -/
theorem joinComma_head (f : Str) (fs : List Str) (hne : ¬(f = [] ∧ fs = [])) :
    ∃ c t, joinComma ((f :: fs).map encodeField) = c :: t ∧ c ≠ '\r' ∧ c ≠ '\n' := by
  simp only [List.map_cons, joinComma_cons]
  by_cases hq : needsQuote f = true
  · refine ⟨'"', ((f.flatMap fun c => if c = '"' then ['"', '"'] else [c]) ++ ['"']) ++
      (if List.map encodeField fs = [] then [] else ',' :: joinComma (List.map encodeField fs)),
      ?_, by decide, by decide⟩
    simp [encodeField, hq]
  · rw [Bool.not_eq_true] at hq
    cases f with
    | nil =>
      cases fs with
      | nil => exact absurd ⟨rfl, rfl⟩ hne
      | cons g t' =>
        refine ⟨',', joinComma (List.map encodeField (g :: t')), ?_, by decide, by decide⟩
        rw [if_neg (by simp)]
        simp [encodeField, hq]
    | cons c f' =>
      have hc := needsQuote_safe hq c (List.mem_cons_self _ _)
      refine ⟨c, f' ++
        (if List.map encodeField fs = [] then [] else ',' :: joinComma (List.map encodeField fs)),
        ?_, hc.2.2.1, hc.2.2.2⟩
      simp [encodeField, hq]

theorem canonRow_of_nd {r : Row} (h : ndRow r = true) : canonRow r = r := by
  simp only [ndRow, decide_eq_true_eq] at h
  simp [canonRow, h]

theorem canonRow_degenerate {r : Row} (h : ¬ndRow r = true) : canonRow r = [] := by
  simp only [ndRow, decide_eq_true_eq, not_not] at h
  simp [canonRow, h]

/-- One serialised record at the head of the stream parses to its
canonical form, and parsing resumes cleanly after it. -/
theorem runParse_row (fields : Row) (rest : Str) :
    runParse (encodeRow fields ++ rest) .startRec [] [] =
      canonRow fields :: runParse rest .startRec [] [] := by
  by_cases hnd : ndRow fields = true
  · rw [canonRow_of_nd hnd]
    simp only [ndRow, decide_eq_true_eq] at hnd
    push_neg at hnd
    cases fields with
    | nil => exact absurd rfl hnd.1
    | cons f fs =>
      have hne : ¬(f = [] ∧ fs = []) := by
        intro ⟨h1, h2⟩
        exact hnd.2 (by rw [h1, h2])
      obtain ⟨c, t, hj, hc1, hc2⟩ := joinComma_head f fs hne
      simp only [encodeRow, hj, List.cons_append]
      rw [runParse_startRec_eq_startField c hc1 hc2]
      have := runParse_fields (f :: fs) (by simp) [] rest
      simp only [hj, List.nil_append, List.cons_append] at this
      simpa using this
  · rw [canonRow_degenerate hnd]
    simp only [ndRow, decide_eq_true_eq, not_not] at hnd
    have hrow : encodeRow fields = ['\r', '\n'] := by
      rcases hnd with h | h <;> subst h <;> rfl
    rw [hrow]
    simp only [List.cons_append, List.nil_append]
    rw [runParse_startRec_cr, runParse_eatNL_nl]

/-- File-level round trip: parsing a serialised row list yields the
canonical forms in order. -/
theorem parseRecords_flatMap :
    ∀ rows : List Row, parseRecords (rows.flatMap encodeRow) = rows.map canonRow := by
  intro rows
  induction rows with
  | nil => rfl
  | cons r rs ih =>
    simp only [List.flatMap_cons, List.map_cons]
    unfold parseRecords at ih ⊢
    rw [runParse_row, ih]

theorem map_canon_filter :
    ∀ rows : List Row, (rows.map canonRow).filter (· ≠ []) = rows.filter ndRow := by
  intro rows
  induction rows with
  | nil => rfl
  | cons r rs ih =>
    by_cases hnd : ndRow r = true
    · have hr : r ≠ [] := by
        simp only [ndRow, decide_eq_true_eq] at hnd
        exact fun h => hnd (Or.inl h)
      simp only [List.map_cons, List.filter_cons, canonRow_of_nd hnd, hnd, ne_eq, decide_not]
      simp only [ne_eq, decide_not] at ih
      simp [hr, ih]
    · have hb : ndRow r = false := by simpa using hnd
      simp only [List.map_cons, List.filter_cons, canonRow_degenerate hnd, hb]
      simpa using ih

/-- What loading gives back after writing: the non-degenerate rows, in
order (the header row is recreated and skipped). -/
theorem load_write (rows : List Row) :
    load_existing_rows (writeCsvContent rows) = rows.filter ndRow := by
  unfold load_existing_rows writeCsvContent
  rw [parseRecords_flatMap]
  simp only [List.map_cons, List.drop_succ_cons, List.drop_zero]
  exact map_canon_filter rows

theorem ndRow_of_len {r : Row} (h : 2 ≤ r.length) : ndRow r = true := by
  simp only [ndRow, decide_eq_true_eq]
  rintro (h1 | h1) <;> subst h1 <;> simp at h

theorem getD_range_eq (r : Row) (n : Nat) (h : r.length = n) :
    (List.range n).map (fun i => r.getD i []) = r := by
  refine List.ext_getElem (by simp [h]) fun i h1 h2 => ?_
  simp only [List.getElem_map, List.getElem_range]
  rw [List.getD_eq_getElem?_getD, List.getElem?_eq_getElem h2]
  rfl

/-! # C8 and C10 -/

/-- C8.  Round trip: a sequence of full-width (eleven-field) records,
written with the row-oriented writer, loads back as the identical
sequence in the same order; and the keyed form built from the same
sequence carries exactly the schema field names and exactly the row's
fields, in order. -/
theorem C8_round_trip (rows : List Row) (h : ∀ r ∈ rows, r.length = HEADERS.length) :
    load_existing_rows (writeCsvContent rows) = rows ∧
    ∀ r ∈ rows, (jsonRecord r).map Prod.fst = HEADERS ∧ (jsonRecord r).map Prod.snd = r := by
  constructor
  · rw [load_write]
    refine List.filter_eq_self.2 fun r hr => ?_
    exact ndRow_of_len (by rw [h r hr]; decide)
  · intro r hr
    constructor
    · rfl
    · simp only [jsonRecord, List.map_map]
      exact getD_range_eq r HEADERS.length (h r hr)

set_option maxRecDepth 10000 in
/-- Witness for C8 on a concrete two-record archive. -/
theorem C8_round_trip_witness :
    load_existing_rows (writeCsvContent [exRow2, exRow]) = [exRow2, exRow] ∧
    ∀ r ∈ [exRow2, exRow],
      (jsonRecord r).map Prod.fst = HEADERS ∧ (jsonRecord r).map Prod.snd = r :=
  C8_round_trip [exRow2, exRow] (by decide)

/-- C10.  Unconditional header skip: loading a csv file whose records
are full-width drops the first record no matter its content — a data
record in first position is silently omitted from the loaded rows, and
hence from the event-id seen-set and the latest-date detection. -/
theorem C10_header_skip (r : Row) (rs : List Row)
    (h : ∀ x ∈ r :: rs, x.length = HEADERS.length) :
    load_existing_rows ((r :: rs).flatMap encodeRow) = rs ∧
    eventIdsOf (load_existing_rows ((r :: rs).flatMap encodeRow)) = eventIdsOf rs ∧
    latestOf (load_existing_rows ((r :: rs).flatMap encodeRow)) = latestOf rs := by
  have hmain : load_existing_rows ((r :: rs).flatMap encodeRow) = rs := by
    unfold load_existing_rows
    rw [parseRecords_flatMap]
    simp only [List.map_cons, List.drop_succ_cons, List.drop_zero]
    rw [map_canon_filter]
    refine List.filter_eq_self.2 fun x hx => ?_
    exact ndRow_of_len (by rw [h x (List.mem_cons_of_mem _ hx)]; decide)
  exact ⟨hmain, by rw [hmain], by rw [hmain]⟩

set_option maxRecDepth 10000 in
/-- Witness for C10: a file whose first record is a data record (it
carries event id `E1` and a parseable date) loses that record on load. -/
theorem C10_header_skip_witness :
    load_existing_rows (([exRow2, exRow] : List Row).flatMap encodeRow) = [exRow] ∧
    eventIdsOf (load_existing_rows (([exRow2, exRow] : List Row).flatMap encodeRow)) =
      eventIdsOf [exRow] ∧
    latestOf (load_existing_rows (([exRow2, exRow] : List Row).flatMap encodeRow)) =
      latestOf [exRow] :=
  C10_header_skip exRow2 [exRow] (by decide)

/-! # Calendar lemmas -/

theorem daysInMonth_le (y m : Nat) : daysInMonth y m ≤ 31 := by
  unfold daysInMonth
  split
  all_goals first | omega | (split <;> omega)

theorem daysInMonth_pos {y m : Nat} (h1 : 1 ≤ m) (h2 : m ≤ 12) : 28 ≤ daysInMonth y m := by
  interval_cases m
  all_goals simp [daysInMonth]
  all_goals split
  all_goals omega

theorem valid_bounds {a : Date} (h : a.valid = true) :
    1 ≤ a.y ∧ a.y ≤ 9999 ∧ 1 ≤ a.m ∧ a.m ≤ 12 ∧ 1 ≤ a.d ∧ a.d ≤ daysInMonth a.y a.m := by
  simpa [Date.valid, isValidDate, and_assoc] using h

theorem key_le_of_leB {a b : Date} (ha : a.valid = true) (hb : b.valid = true)
    (h : a.leB b = true) : a.key ≤ b.key := by
  have h1 := valid_bounds ha
  have h2 := valid_bounds hb
  have h3 := daysInMonth_le a.y a.m
  have h4 := daysInMonth_le b.y b.m
  rw [Date.leB_iff] at h
  unfold Date.key
  omega

theorem key_lt_succ {a : Date} (ha : a.valid = true) : a.key < a.succ.key := by
  have h1 := valid_bounds ha
  have h3 := daysInMonth_le a.y a.m
  unfold Date.succ
  split_ifs <;> (unfold Date.key; dsimp only; omega)

theorem succ_valid_of_le {a e : Date} (ha : a.valid = true) (he : e.valid = true)
    (hle : a.succ.leB e = true) : a.succ.valid = true := by
  have h1 := valid_bounds ha
  have h2 := valid_bounds he
  unfold Date.succ at hle ⊢
  split_ifs at hle ⊢ with hc1 hc2
  · simp only [Date.valid, isValidDate]
    simp
    omega
  · have := daysInMonth_pos (m := a.m + 1) (by omega) (by omega) (y := a.y)
    simp only [Date.valid, isValidDate]
    simp
    omega
  · rw [Date.leB_iff] at hle
    dsimp only at hle
    have := daysInMonth_pos (m := 1) (by omega) (by omega) (y := a.y + 1)
    simp only [Date.valid, isValidDate]
    simp
    omega

theorem leB_succ {a : Date} (ha : a.valid = true) : a.leB a.succ = true := by
  have h1 := valid_bounds ha
  unfold Date.succ
  split_ifs <;> (rw [Date.leB_iff]; dsimp only; omega)

theorem succ_leB_of_ltB {a b : Date} (ha : a.valid = true) (hb : b.valid = true)
    (hlt : a.ltB b = true) : a.succ.leB b = true := by
  have h1 := valid_bounds ha
  have h2 := valid_bounds hb
  rw [Date.ltB_iff] at hlt
  unfold Date.succ
  split_ifs with hc1 hc2
  · rw [Date.leB_iff]
    dsimp only
    omega
  · rw [Date.leB_iff]
    dsimp only
    by_cases hy : a.y = b.y
    · by_cases hm : a.m = b.m
      · exfalso
        have hdim : daysInMonth b.y b.m = daysInMonth a.y a.m := by rw [hy, hm]
        omega
      · omega
    · omega
  · rw [Date.leB_iff]
    dsimp only
    by_cases hy : a.y = b.y
    · by_cases hm : a.m = b.m
      · exfalso
        have hdim : daysInMonth b.y b.m = daysInMonth a.y a.m := by rw [hy, hm]
        omega
      · omega
    · omega

theorem succ_mono {a b : Date} (ha : a.valid = true) (hb : b.valid = true)
    (h : a.leB b = true) : a.succ.leB b.succ = true := by
  by_cases heq : a = b
  · subst heq
    exact Date.leB_refl _
  · exact Date.leB_trans (succ_leB_of_ltB ha hb (Date.ltB_of_leB_ne h heq)) (leB_succ hb)

theorem mkDate?_valid {y m d : Nat} {dt : Date} (h : mkDate? y m d = some dt) :
    dt.valid = true := by
  unfold mkDate? at h
  split at h
  · cases h
    assumption
  · exact absurd h (by simp)

/-! # The fetch window -/

theorem daterangeAux_nil {fuel : Nat} {s e : Date} (h : ¬s.leB e = true) :
    daterangeAux fuel s e = [] := by
  cases fuel with
  | zero => rfl
  | succ n => simp [daterangeAux, h]

/-- Membership in the fuelled day iteration: exactly the valid dates
between the (valid) cursor and the (valid) end, inclusive. -/
theorem mem_daterangeAux :
    ∀ (fuel : Nat) (cur e x : Date), cur.valid = true → e.valid = true →
    e.key + 1 - cur.key ≤ fuel →
    (x ∈ daterangeAux fuel cur e ↔
      (x.valid = true ∧ cur.leB x = true ∧ x.leB e = true)) := by
  intro fuel
  induction fuel with
  | zero =>
    intro cur e x hcur he hfuel
    simp only [daterangeAux, List.not_mem_nil, false_iff]
    rintro ⟨hx, h1, h2⟩
    have k1 := key_le_of_leB hcur hx h1
    have k2 := key_le_of_leB hx he h2
    omega
  | succ n ih =>
    intro cur e x hcur he hfuel
    simp only [daterangeAux]
    by_cases hle : cur.leB e = true
    · rw [if_pos hle]
      by_cases hnext : cur.succ.leB e = true
      · have hsv : cur.succ.valid = true := succ_valid_of_le hcur he hnext
        have hkey := key_lt_succ hcur
        have hkey2 := key_le_of_leB hcur he hle
        rw [List.mem_cons, ih cur.succ e x hsv he (by omega)]
        constructor
        · rintro (rfl | ⟨hx, h1, h2⟩)
          · exact ⟨hcur, Date.leB_refl _, hle⟩
          · exact ⟨hx, Date.leB_trans (leB_succ hcur) h1, h2⟩
        · rintro ⟨hx, h1, h2⟩
          by_cases heq : x = cur
          · exact Or.inl heq
          · refine Or.inr ⟨hx, ?_, h2⟩
            exact succ_leB_of_ltB hcur hx (Date.ltB_of_leB_ne h1 fun h => heq h.symm)
      · rw [daterangeAux_nil hnext]
        simp only [List.mem_cons, List.not_mem_nil, or_false]
        constructor
        · rintro rfl
          exact ⟨hcur, Date.leB_refl _, hle⟩
        · rintro ⟨hx, h1, h2⟩
          by_cases heq : x = cur
          · exact heq
          · exfalso
            have := succ_leB_of_ltB hcur hx (Date.ltB_of_leB_ne h1 fun h => heq h.symm)
            exact hnext (Date.leB_trans this h2)
    · rw [if_neg hle]
      simp only [List.not_mem_nil, false_iff]
      rintro ⟨_, h1, h2⟩
      exact hle (Date.leB_trans h1 h2)

/-- Membership in `daterange`. -/
theorem mem_daterange {s e x : Date} (hs : s.valid = true) (he : e.valid = true) :
    x ∈ daterange s e ↔ (x.valid = true ∧ s.leB x = true ∧ x.leB e = true) :=
  mem_daterangeAux (e.key + 1 - s.key) s e x hs he (le_refl _)

/-! # Parsed dates are valid -/

theorem parse_mmddyy_valid {s : Str} {dt : Date}
    (h : parse_mmddyy_or_yyyy s = some dt) : dt.valid = true := by
  simp only [parse_mmddyy_or_yyyy] at h
  split at h
  · rename_i d1 hd1
    cases h
    rcases Option.bind_eq_some.1 hd1 with ⟨v, _, hv⟩
    exact mkDate?_valid hv
  · split at h
    · rename_i d1 hd1
      cases h
      rcases Option.bind_eq_some.1 hd1 with ⟨v, _, hv⟩
      exact mkDate?_valid hv
    · split at h
      · exact absurd h (by simp)
      · exact mkDate?_valid h

theorem parse_any_valid {s : Str} {dt : Date}
    (h : parse_any_date_field s = some dt) : dt.valid = true := by
  simp only [parse_any_date_field] at h
  split at h
  · exact absurd h (by simp)
  · split at h
    · exact absurd h (by simp)
    · exact parse_mmddyy_valid h

theorem tryIdx_valid {row : Row} {i : Nat} {dt : Date}
    (h : tryIdx row i = some dt) : dt.valid = true := by
  simp only [tryIdx] at h
  split at h
  · exact parse_any_valid h
  · exact absurd h (by simp)

theorem best_row_date_valid {row : Row} {dt : Date}
    (h : best_row_date row = some dt) : dt.valid = true := by
  simp only [best_row_date] at h
  split at h
  · rename_i hd
    cases h
    exact tryIdx_valid hd
  · split at h
    · rename_i hd
      cases h
      exact tryIdx_valid hd
    · exact tryIdx_valid h

theorem foldl_latest_valid :
    ∀ (rows : List Row) (acc : Option Date), (∀ a, acc = some a → a.valid = true) →
    ∀ l, rows.foldl latestStep acc = some l → l.valid = true := by
  intro rows
  induction rows with
  | nil =>
    intro acc hacc l h
    exact hacc l h
  | cons r rs ih =>
    intro acc hacc l h
    simp only [List.foldl_cons] at h
    refine ih (latestStep acc r) ?_ l h
    intro a ha
    unfold latestStep at ha
    cases hd : best_row_date r with
    | none =>
      simp only [hd] at ha
      exact hacc a ha
    | some d =>
      simp only [hd] at ha
      cases hacc0 : acc with
      | none =>
        simp only [hacc0] at ha
        cases ha
        exact best_row_date_valid hd
      | some l0 =>
        simp only [hacc0, Option.some.injEq] at ha
        subst ha
        split
        · exact best_row_date_valid hd
        · exact hacc l0 hacc0

theorem latestOf_valid {rows : List Row} {l : Date} (h : latestOf rows = some l) :
    l.valid = true :=
  foldl_latest_valid rows none (by simp) l h

theorem EARLIEST_valid : EARLIEST_DATE.valid = true := by decide

/-- The start of the window is always a valid date or the successor of
the latest archive date; whenever it is at most today (today valid), it
is itself valid. -/
theorem startOf_valid {rows : List Row} {today : Date} (htoday : today.valid = true)
    (hle : (startOf rows).leB today = true) : (startOf rows).valid = true := by
  unfold startOf at hle ⊢
  cases hl : latestOf rows with
  | some l =>
    simp only [hl] at hle ⊢
    exact succ_valid_of_le (latestOf_valid hl) htoday hle
  | none =>
    simp only [hl]
    exact EARLIEST_valid

/-- C4.  Fetch window: the days a run fetches are exactly the inclusive
range from the day after the archive's latest representative date (or
from the configured earliest date 2023-12-04 when no date is found)
through today — membership is characterised by the date order — and a
start beyond today ends the run at once with nothing fetched and
nothing written beyond the startup initialisation. -/
theorem C4_fetch_window (fetch : Date → List Row) (today : Date) (fs : FS)
    (htoday : today.valid = true) :
    ((backfill fetch today fs).2.1 =
      if (startOf (archRows fs)).leB today then daterange (startOf (archRows fs)) today
      else []) ∧
    (∀ dd : Date, dd ∈ (backfill fetch today fs).2.1 ↔
      (dd.valid = true ∧ (startOf (archRows fs)).leB dd = true ∧ dd.leB today = true)) ∧
    (latestOf (archRows fs) = none → startOf (archRows fs) = EARLIEST_DATE) ∧
    ((startOf (archRows fs)).leB today = false →
      (backfill fetch today fs).1 = ensureCsv fs ∧
      (backfill fetch today fs).2.2 = none ∧
      (backfill fetch today fs).2.1 = []) := by
  refine ⟨backfill_dates fetch today fs, fun dd => ?_, fun h => ?_, fun hf => ?_⟩
  · rw [backfill_dates]
    by_cases hle : (startOf (archRows fs)).leB today = true
    · rw [if_pos hle]
      exact mem_daterange (startOf_valid htoday hle) htoday
    · rw [if_neg hle]
      simp only [List.not_mem_nil, false_iff]
      rintro ⟨_, h1, h2⟩
      exact hle (Date.leB_trans h1 h2)
  · unfold startOf
    simp [h]
  · rw [backfill_unfold, if_neg (by simp [hf])]
    exact ⟨rfl, rfl, rfl⟩

set_option maxRecDepth 10000 in
/-- Witness for C4 on a concrete run over an empty archive with today
equal to the earliest date (a one-day window). -/
theorem C4_fetch_window_witness :
    ((backfill exFetch EARLIEST_DATE exFS).2.1 =
      if (startOf (archRows exFS)).leB EARLIEST_DATE then
        daterange (startOf (archRows exFS)) EARLIEST_DATE
      else []) ∧
    (EARLIEST_DATE ∈ (backfill exFetch EARLIEST_DATE exFS).2.1 ↔
      (EARLIEST_DATE.valid = true ∧
        (startOf (archRows exFS)).leB EARLIEST_DATE = true ∧
        EARLIEST_DATE.leB EARLIEST_DATE = true)) :=
  ⟨(C4_fetch_window exFetch EARLIEST_DATE exFS (by decide)).1,
   (C4_fetch_window exFetch EARLIEST_DATE exFS (by decide)).2.1 EARLIEST_DATE⟩

/-! # The latest-date fold as an associative maximum -/

theorem Date.leB_of_not_ltB {a b : Date} (h : ¬a.ltB b = true) : b.leB a = true := by
  rw [Date.ltB_iff] at h
  rw [Date.leB_iff]
  omega

theorem latestStep_eq (acc : Option Date) (r : Row) :
    latestStep acc r = optMax acc (best_row_date r) := rfl

theorem optMax_none_left (b : Option Date) : optMax none b = b := by
  cases b <;> rfl

theorem optMax_assoc (a b c : Option Date) :
    optMax (optMax a b) c = optMax a (optMax b c) := by
  cases b with
  | none => cases c <;> rfl
  | some db =>
    cases c with
    | none => rfl
    | some dc =>
      cases a with
      | none => rfl
      | some da =>
        simp only [optMax]
        split_ifs
        all_goals first
          | rfl
          | (exfalso; simp only [Date.ltB_iff] at *; try omega)

theorem foldl_latestStep_optMax :
    ∀ (rows : List Row) (acc : Option Date),
    rows.foldl latestStep acc = optMax acc (latestOf rows) := by
  intro rows
  induction rows with
  | nil => intro acc; rfl
  | cons r rs ih =>
    intro acc
    have hlatest : latestOf (r :: rs) = optMax (best_row_date r) (latestOf rs) := by
      unfold latestOf
      rw [List.foldl_cons, ih (latestStep none r), latestStep_eq, optMax_none_left]
      rfl
    rw [hlatest, List.foldl_cons, ih (latestStep acc r), latestStep_eq, optMax_assoc]

theorem latestOf_append (xs ys : List Row) :
    latestOf (xs ++ ys) = optMax (latestOf xs) (latestOf ys) := by
  unfold latestOf
  rw [List.foldl_append]
  exact foldl_latestStep_optMax ys _

theorem latestOf_cons (r : Row) (rs : List Row) :
    latestOf (r :: rs) = optMax (best_row_date r) (latestOf rs) := by
  unfold latestOf
  rw [List.foldl_cons, foldl_latestStep_optMax, latestStep_eq, optMax_none_left]
  rfl

theorem best_row_date_degenerate : best_row_date [] = none ∧ best_row_date [[]] = none := by
  decide

theorem latestOf_filter_nd :
    ∀ rows : List Row, latestOf (rows.filter ndRow) = latestOf rows := by
  intro rows
  induction rows with
  | nil => rfl
  | cons r rs ih =>
    rw [List.filter_cons]
    by_cases hnd : ndRow r = true
    · rw [if_pos hnd, latestOf_cons, latestOf_cons, ih]
    · rw [if_neg hnd, latestOf_cons, ih]
      have hdeg : r = [] ∨ r = [[]] := by
        rw [or_iff_not_imp_left]
        simpa [ndRow] using hnd
      have hb : best_row_date r = none := by
        rcases hdeg with h | h <;> rw [h]
        · exact best_row_date_degenerate.1
        · exact best_row_date_degenerate.2
      rw [hb, optMax_none_left]

theorem optMax_some_right_le (a : Option Date) (l : Date) :
    ∃ l1, optMax a (some l) = some l1 ∧ l.leB l1 = true := by
  cases a with
  | none => exact ⟨l, rfl, Date.leB_refl l⟩
  | some s =>
    by_cases hlt : s.ltB l = true
    · exact ⟨l, by simp [optMax, hlt], Date.leB_refl l⟩
    · exact ⟨s, by simp [optMax, hlt], Date.leB_of_not_ltB hlt⟩

/-! # Event-id bookkeeping -/

theorem evOf_ne_guard {r : Row} (h : evOf r ≠ []) :
    IDX_EVENT < r.length ∧ r.getD IDX_EVENT [] = evOf r := by
  by_cases hg : IDX_EVENT < r.length
  · exact ⟨hg, by simp [evOf, hg]⟩
  · exact absurd (by simp [evOf, hg]) h

theorem evOf_ne_ndRow {r : Row} (h : evOf r ≠ []) : ndRow r = true := by
  have hg := (evOf_ne_guard h).1
  simp only [ndRow, decide_eq_true_eq]
  rintro (h1 | h1) <;> subst h1 <;> simp [IDX_EVENT] at hg

theorem mem_eventIdsOf {u : Row} {l : List Row} (hu : u ∈ l) (h : evOf u ≠ []) :
    evOf u ∈ eventIdsOf l := by
  obtain ⟨hg, heq⟩ := evOf_ne_guard h
  unfold eventIdsOf
  refine List.mem_filterMap.2 ⟨u, hu, ?_⟩
  rw [if_pos (by simp only [heq, Bool.and_eq_true, decide_eq_true_eq]; exact ⟨hg, h⟩), heq]

theorem eventIdsOf_append (xs ys : List Row) :
    eventIdsOf (xs ++ ys) = eventIdsOf xs ++ eventIdsOf ys := by
  unfold eventIdsOf
  exact List.filterMap_append _ _ _

theorem eventIdsOf_filter_nd :
    ∀ rows : List Row, eventIdsOf (rows.filter ndRow) = eventIdsOf rows := by
  intro rows
  induction rows with
  | nil => rfl
  | cons r rs ih =>
    rw [List.filter_cons]
    by_cases hnd : ndRow r = true
    · rw [if_pos hnd]
      unfold eventIdsOf at ih ⊢
      simp only [List.filterMap_cons]
      split <;> rw [ih]
    · rw [if_neg hnd]
      have hdeg : r = [] ∨ r = [[]] := by
        rw [or_iff_not_imp_left]
        simpa [ndRow] using hnd
      unfold eventIdsOf at ih ⊢
      simp only [List.filterMap_cons]
      have hnone : (if (IDX_EVENT < r.length && r.getD IDX_EVENT [] ≠ []) = true then
          some (r.getD IDX_EVENT []) else none) = none := by
        rcases hdeg with h | h <;> subst h <;> rfl
      rw [hnone, ih]

/-! # C3: idempotence -/

/-- C3 amended.  Idempotence holds provided the archive exists with a
parseable latest date and every fetched record carries a non-empty
event id: running the reconciler again immediately, with the remote
source returning the same documents, leaves both persisted files
byte-for-byte unchanged (the second run's window is contained in the
first run's, and every re-fetched record's id is already archived, so
nothing survives deduplication and nothing is written). -/
theorem C3_idempotent_amended (fetch : Date → List Row) (today : Date) (fs : FS)
    (c : Str) (l : Date)
    (htoday : today.valid = true)
    (hcsv : fs.csv = some c)
    (hlatest : latestOf (archRows fs) = some l)
    (hfetch : ∀ d r, r ∈ fetch d → evOf r ≠ []) :
    (backfill fetch today (backfill fetch today fs).1).1 = (backfill fetch today fs).1 := by
  cases htr : (backfill fetch today fs).2.2 with
  | none =>
    have h1 : (backfill fetch today fs).1 = fs := by
      rw [backfill_none_shape htr, ensureCsv_of_some (by simp [hcsv])]
    rw [h1]
    exact h1
  | some w =>
    obtain ⟨hw, _, hle1, hfs1shape⟩ := backfill_write_shape htr
    have hfs1csv : (backfill fetch today fs).1.csv = some (writeCsvContent w) := by
      rw [hfs1shape]
    have hens1 : ensureCsv (backfill fetch today fs).1 = (backfill fetch today fs).1 :=
      ensureCsv_of_some (by rw [hfs1csv]; rfl)
    have harch1 : archRows (backfill fetch today fs).1 = w.filter ndRow := by
      unfold archRows
      rw [hens1, hfs1csv]
      simp only [Option.getD_some]
      exact load_write w
    have hsorted_nd : ∀ r ∈ sortDesc today (survivors fetch today fs), ndRow r = true := by
      intro r hr
      have hru : r ∈ survivors fetch today fs := (sortDesc_perm today _).mem_iff.1 hr
      unfold survivors at hru
      have hrf : r ∈ fetchedRows fetch today fs := dedup_subset _ _ hru
      obtain ⟨d, _, hrd⟩ := List.mem_flatMap.1 hrf
      exact evOf_ne_ndRow (hfetch d r hrd)
    have harch1' : archRows (backfill fetch today fs).1 =
        sortDesc today (survivors fetch today fs) ++ (archRows fs).filter ndRow := by
      rw [harch1, hw, List.filter_append, List.filter_eq_self.2 hsorted_nd]
    have hlatest_filter : latestOf ((archRows fs).filter ndRow) = some l := by
      rw [latestOf_filter_nd]
      exact hlatest
    obtain ⟨l1, hl1, hll1⟩ :
        ∃ l1, latestOf (archRows (backfill fetch today fs).1) = some l1 ∧ l.leB l1 = true := by
      rw [harch1', latestOf_append, hlatest_filter]
      exact optMax_some_right_le _ l
    have hl1v : l1.valid = true := latestOf_valid hl1
    have hlv : l.valid = true := latestOf_valid hlatest
    have hstart1 : startOf (archRows fs) = l.succ := by
      unfold startOf
      simp [hlatest]
    have hstart2 : startOf (archRows (backfill fetch today fs).1) = l1.succ := by
      unfold startOf
      simp [hl1]
    by_cases hle2 : (startOf (archRows (backfill fetch today fs).1)).leB today = true
    · have hstart2v : (startOf (archRows (backfill fetch today fs).1)).valid = true :=
        startOf_valid htoday hle2
      have hsucc_mono : (startOf (archRows fs)).leB
          (startOf (archRows (backfill fetch today fs).1)) = true := by
        rw [hstart1, hstart2]
        exact succ_mono hlv hl1v hll1
      have hstart1le : (startOf (archRows fs)).leB today = true :=
        Date.leB_trans hsucc_mono hle2
      have hstart1v : (startOf (archRows fs)).valid = true := startOf_valid htoday hstart1le
      have hwin : ∀ dd, dd ∈ daterange (startOf (archRows (backfill fetch today fs).1)) today →
          dd ∈ daterange (startOf (archRows fs)) today := by
        intro dd hdd
        obtain ⟨hv, h1, h2⟩ := (mem_daterange hstart2v htoday).1 hdd
        exact (mem_daterange hstart1v htoday).2 ⟨hv, Date.leB_trans hsucc_mono h1, h2⟩
      have hskip : ∀ r ∈ (daterange (startOf (archRows (backfill fetch today fs).1))
            today).flatMap fetch,
          evOf r ≠ [] ∧ evOf r ∈ eventIdsOf (archRows (backfill fetch today fs).1) := by
        intro r hr
        obtain ⟨d, hd, hrd⟩ := List.mem_flatMap.1 hr
        have hne := hfetch d r hrd
        refine ⟨hne, ?_⟩
        have hr1 : r ∈ fetchedRows fetch today fs := by
          unfold fetchedRows
          rw [backfill_dates, if_pos hle1]
          exact List.mem_flatMap.2 ⟨d, hwin d hd, hrd⟩
        rcases dedup_cover _ (eventIdsOf (archRows fs)) r hr1 hne with hcov | hcov
        · rw [harch1', eventIdsOf_append]
          refine List.mem_append.2 (Or.inr ?_)
          rw [eventIdsOf_filter_nd]
          exact hcov
        · rw [harch1', eventIdsOf_append]
          refine List.mem_append.2 (Or.inl ?_)
          obtain ⟨x, hx, hxe⟩ := List.mem_map.1 hcov
          have hxs : x ∈ sortDesc today (survivors fetch today fs) := by
            refine (sortDesc_perm today _).mem_iff.2 ?_
            unfold survivors
            exact hx
          rw [← hxe]
          exact mem_eventIdsOf hxs (by rw [hxe]; exact hne)
      rw [backfill_unfold, if_pos hle2]
      by_cases hall : (daterange (startOf (archRows (backfill fetch today fs).1))
          today).flatMap fetch = []
      · rw [if_pos hall]
        exact hens1
      · rw [if_neg hall, if_pos (dedup_all_skip _ _ hskip)]
        exact hens1
    · rw [backfill_unfold, if_neg hle2]
      exact hens1

set_option maxRecDepth 20000 in
/-- C3 counterexample: with an empty (header-only) archive and a remote
document containing one record with an empty event id and no parseable
date, the first run appends the record, and the second run — with the
remote source returning the same documents — appends it again: the
archive is not byte-for-byte unchanged after the second run. -/
theorem C3_counterexample :
    (backfill exFetch EARLIEST_DATE (backfill exFetch EARLIEST_DATE exFS).1).1 ≠
      (backfill exFetch EARLIEST_DATE exFS).1 := by
  decide

set_option maxRecDepth 20000 in
/-- Witness for C3: an archive holding an `E1` record dated 2023-12-04,
today 2023-12-05, and a remote document for 2023-12-05 holding an `E2`
record: the first run writes, the second run changes nothing. -/
theorem C3_idempotent_amended_witness :
    (backfill exFetch3 ⟨2023, 12, 5⟩ (backfill exFetch3 ⟨2023, 12, 5⟩ exFS2).1).1 =
      (backfill exFetch3 ⟨2023, 12, 5⟩ exFS2).1 :=
  C3_idempotent_amended exFetch3 ⟨2023, 12, 5⟩ exFS2 (writeCsvContent [exRow2])
    ⟨2023, 12, 4⟩ (by decide) rfl (by decide)
    (by
      intro d r hr
      unfold exFetch3 at hr
      split at hr
      · rw [List.mem_singleton] at hr
        subst hr
        decide
      · exact absurd hr (List.not_mem_nil r))

/-! # C6: parser correctness on canonical date strings -/

theorem digCh_spec : ∀ k, k < 10 →
    isDigitCh (digCh k) = true ∧ digVal (digCh k) = k ∧ isSpaceCh (digCh k) = false ∧
    (digCh k = '0' ↔ k = 0) ∧ digCh k ≠ '/' := by
  decide

theorem firstSome_cons (a : α) (tl : List α) (k : α → Option β) :
    firstSome (a :: tl) k =
      match k a with
      | some b => some b
      | none => firstSome tl k := rfl

theorem firstSome_cons_some {a : α} {tl : List α} {k : α → Option β} {b : β}
    (h : k a = some b) : firstSome (a :: tl) k = some b := by
  rw [firstSome_cons, h]

theorem firstSome_eq_none {l : List α} {k : α → Option β}
    (h : ∀ a ∈ l, k a = none) : firstSome l k = none := by
  induction l with
  | nil => rfl
  | cons a tl ih =>
    rw [firstSome_cons, h a (List.mem_cons_self _ _)]
    exact ih fun x hx => h x (List.mem_cons_of_mem _ hx)

theorem firstSome_some_mem {l : List α} {k : α → Option β} {b : β}
    (h : firstSome l k = some b) : ∃ a ∈ l, k a = some b := by
  induction l with
  | nil => simp [firstSome] at h
  | cons a tl ih =>
    rw [firstSome_cons] at h
    cases hk : k a with
    | some b0 =>
      rw [hk] at h
      dsimp only at h
      exact ⟨a, List.mem_cons_self _ _, hk.trans h⟩
    | none =>
      rw [hk] at h
      dsimp only at h
      obtain ⟨x, hx, hkx⟩ := ih h
      exact ⟨x, List.mem_cons_of_mem _ hx, hkx⟩

theorem slashThen_slash (k : Str → Option α) (rest : Str) :
    slashThen k ('/' :: rest) = k rest := by
  simp [slashThen]

theorem slashThen_ne {c : Char} (hne : c ≠ '/') (k : Str → Option α) (rest : Str) :
    slashThen k (c :: rest) = none := by
  simp [slashThen, hne]

theorem slashThen_some {k : Str → Option α} {s : Str} {b : α}
    (h : slashThen k s = some b) : ∃ rest, s = '/' :: rest ∧ k rest = some b := by
  cases s with
  | nil => simp [slashThen] at h
  | cons c rest =>
    by_cases hc : c = '/'
    · subst hc
      rw [slashThen_slash] at h
      exact ⟨rest, rfl, h⟩
    · rw [slashThen_ne hc] at h
      simp at h

/-- Structure of a month alternative: the input splits as consumed
characters ending in a digit, then the remaining input. -/
theorem monthAlts_shape {t : Str} {v : Nat} {r : Str} (h : (v, r) ∈ monthAlts t) :
    ∃ p c, t = p ++ c :: r ∧ isDigitCh c = true := by
  unfold monthAlts at h
  rcases List.mem_append.1 h with h' | h'
  · rcases List.mem_append.1 h' with h2 | h2
    · split at h2
      · rename_i c1 c rest
        split_ifs at h2 with hc
        · simp only [List.mem_singleton, Prod.mk.injEq] at h2
          simp only [Bool.and_eq_true, Bool.or_eq_true, decide_eq_true_eq] at hc
          refine ⟨[c1], c, by rw [h2.2]; rfl, ?_⟩
          rcases hc.2 with (h3 | h3) | h3 <;> subst h3 <;> decide
        · simp at h2
      · simp at h2
    · split at h2
      · rename_i c1 c rest
        split_ifs at h2 with hc
        · simp only [List.mem_singleton, Prod.mk.injEq] at h2
          simp only [Bool.and_eq_true, decide_eq_true_eq] at hc
          exact ⟨[c1], c, by rw [h2.2]; rfl, hc.2.1⟩
        · simp at h2
      · simp at h2
  · split at h'
    · rename_i c rest
      split_ifs at h' with hc
      · simp only [List.mem_singleton, Prod.mk.injEq] at h'
        simp only [Bool.and_eq_true, decide_eq_true_eq] at hc
        exact ⟨[], c, by rw [h'.2]; rfl, hc.1⟩
      · simp at h'
    · simp at h'

/-- Structure of a day alternative: the remaining input starts right
after a digit, and the whole alternative's input starts with a digit. -/
theorem dayAlts_shape {t : Str} {v : Nat} {r : Str} (h : (v, r) ∈ dayAlts t) :
    (∃ p c, t = p ++ c :: r ∧ isDigitCh c = true) ∧
    (∃ c rest, t = c :: rest ∧ isDigitCh c = true) := by
  unfold dayAlts at h
  rcases List.mem_append.1 h with h' | h'
  · rcases List.mem_append.1 h' with h2 | h2
    · rcases List.mem_append.1 h2 with h3 | h3
      · split at h3
        · rename_i c1 c rest
          split_ifs at h3 with hc
          · simp only [List.mem_singleton, Prod.mk.injEq] at h3
            simp only [Bool.and_eq_true, Bool.or_eq_true, decide_eq_true_eq] at hc
            have hd : isDigitCh c = true := by
              rcases hc.2 with h4 | h4 <;> subst h4 <;> decide
            exact ⟨⟨[c1], c, by rw [h3.2]; rfl, hd⟩,
              ⟨c1, c :: rest, rfl, by rw [hc.1]; decide⟩⟩
          · simp at h3
        · simp at h3
      · split at h3
        · rename_i c c2 rest
          split_ifs at h3 with hc
          · simp only [List.mem_singleton, Prod.mk.injEq] at h3
            simp only [Bool.and_eq_true, Bool.or_eq_true, decide_eq_true_eq] at hc
            have hd1 : isDigitCh c = true := by
              rcases hc.1 with h4 | h4 <;> subst h4 <;> decide
            exact ⟨⟨[c], c2, by rw [h3.2]; rfl, hc.2⟩, ⟨c, c2 :: rest, rfl, hd1⟩⟩
          · simp at h3
        · simp at h3
    · split at h2
      · rename_i c1 c rest
        split_ifs at h2 with hc
        · simp only [List.mem_singleton, Prod.mk.injEq] at h2
          simp only [Bool.and_eq_true, decide_eq_true_eq] at hc
          exact ⟨⟨[c1], c, by rw [h2.2]; rfl, hc.2.1⟩,
            ⟨c1, c :: rest, rfl, by rw [hc.1]; decide⟩⟩
        · simp at h2
      · simp at h2
  · split at h'
    · rename_i c rest
      split_ifs at h' with hc
      · simp only [List.mem_singleton, Prod.mk.injEq] at h'
        simp only [Bool.and_eq_true, decide_eq_true_eq] at hc
        exact ⟨⟨[], c, by rw [h'.2]; rfl, hc.1⟩, ⟨c, rest, rfl, hc.1⟩⟩
      · simp at h'
    · simp at h'

theorem digits12_shape {t : Str} {ds : Str} {r : Str} (h : (ds, r) ∈ digits12 t) :
    (∃ p c, t = p ++ c :: r ∧ isDigitCh c = true) ∧
    (∃ c rest, t = c :: rest ∧ isDigitCh c = true) := by
  unfold digits12 at h
  rcases List.mem_append.1 h with h' | h'
  · split at h'
    · rename_i c1 c2 rest
      split_ifs at h' with hc
      · simp only [List.mem_singleton, Prod.mk.injEq] at h'
        simp only [Bool.and_eq_true, decide_eq_true_eq] at hc
        exact ⟨⟨[c1], c2, by rw [h'.2]; rfl, hc.2⟩, ⟨c1, c2 :: rest, rfl, hc.1⟩⟩
      · simp at h'
    · simp at h'
  · split at h'
    · rename_i c1 rest
      split_ifs at h' with hc
      · simp only [List.mem_singleton, Prod.mk.injEq] at h'
        exact ⟨⟨[], c1, by rw [h'.2]; rfl, hc⟩, ⟨c1, rest, rfl, hc⟩⟩
      · simp at h'
    · simp at h'

theorem hasDSD_here {a c : Char} (ha : isDigitCh a = true) (hc : isDigitCh c = true)
    (rest : Str) : hasDSD (a :: '/' :: c :: rest) = true := by
  simp [hasDSD, ha, hc]

theorem hasDSD_cons {c : Char} {t : Str} (h : hasDSD t = true) : hasDSD (c :: t) = true := by
  cases t with
  | nil => simp [hasDSD] at h
  | cons b t2 =>
    cases t2 with
    | nil => simp [hasDSD] at h
    | cons b2 t3 =>
      simp only [hasDSD, Bool.or_eq_true] at h ⊢
      exact Or.inr h

theorem hasDSD_cons_false {c : Char} {t : Str} (h : hasDSD (c :: t) = false) :
    hasDSD t = false := by
  by_contra hc
  rw [Bool.not_eq_false] at hc
  rw [hasDSD_cons hc] at h
  simp at h

theorem hasDSD_append_left (p : Str) {t : Str} (h : hasDSD t = true) :
    hasDSD (p ++ t) = true := by
  induction p with
  | nil => simpa using h
  | cons c p ih => exact hasDSD_cons ih

theorem hasDSD_append_right :
    ∀ (t y : Str), hasDSD t = true → hasDSD (t ++ y) = true
  | a :: b :: c :: rest, y, h => by
    simp only [hasDSD, Bool.or_eq_true] at h
    rcases h with h | h
    · simp only [List.cons_append]
      simp [hasDSD, h]
    · have := hasDSD_append_right (b :: c :: rest) y h
      simp only [List.cons_append] at this ⊢
      exact hasDSD_cons this
  | [], _, h => by simp [hasDSD] at h
  | [a], _, h => by simp [hasDSD] at h
  | [a, b], _, h => by simp [hasDSD] at h

theorem strictMDY_hasDSD {k : Nat} {t : Str} {v : Nat × Nat × Nat}
    (h : strictMDY k t = some v) : hasDSD t = true := by
  unfold strictMDY at h
  obtain ⟨a, hmem, hk⟩ := firstSome_some_mem h
  obtain ⟨m, r1⟩ := a
  obtain ⟨p, cm, ht, hcm⟩ := monthAlts_shape hmem
  dsimp only at hk
  obtain ⟨r2, hr1, hk2⟩ := slashThen_some hk
  obtain ⟨b, hdm, _⟩ := firstSome_some_mem hk2
  obtain ⟨dv, r3⟩ := b
  obtain ⟨c2, rest2, hr2, hc2⟩ := (dayAlts_shape hdm).2
  rw [ht, hr1, hr2]
  exact hasDSD_append_left p (hasDSD_here hcm hc2 rest2)

theorem dateReHere_hasDSD {t : Str} {g : Str × Str × Str}
    (h : dateReHere t = some g) : hasDSD t = true := by
  unfold dateReHere at h
  obtain ⟨a, hmem, hk⟩ := firstSome_some_mem h
  obtain ⟨ds1, r1⟩ := a
  obtain ⟨p, c1, ht, hc1⟩ := (digits12_shape hmem).1
  dsimp only at hk
  obtain ⟨r2, hr1, hk2⟩ := slashThen_some hk
  obtain ⟨b, hdm, _⟩ := firstSome_some_mem hk2
  obtain ⟨ds2, r3⟩ := b
  obtain ⟨c2, rest2, hr2, hc2⟩ := (digits12_shape hdm).2
  rw [ht, hr1, hr2]
  exact hasDSD_append_left p (hasDSD_here hc1 hc2 rest2)

theorem dateReSearch_none {t : Str} (h : hasDSD t = false) : dateReSearch t = none := by
  induction t with
  | nil => rfl
  | cons c rest ih =>
    cases hh : dateReHere (c :: rest) with
    | some g => exact absurd (dateReHere_hasDSD hh) (by simp [h])
    | none =>
      simp only [dateReSearch, hh]
      exact ih (hasDSD_cons_false h)

theorem dropWhile_eq_self_of {p : Char → Bool} {s : Str} (h : ∀ c ∈ s, p c = false) :
    s.dropWhile p = s := by
  cases s with
  | nil => rfl
  | cons c t => simp [List.dropWhile_cons, h c (List.mem_cons_self _ _)]

theorem stripChars_eq_self {s : Str} (h : ∀ c ∈ s, isSpaceCh c = false) :
    stripChars s = s := by
  unfold stripChars
  rw [dropWhile_eq_self_of h, dropWhile_eq_self_of fun c hc => h c (List.mem_reverse.1 hc),
    List.reverse_reverse]

theorem hasDSD_strip {s : Str} (h : hasDSD s = false) : hasDSD (stripChars s) = false := by
  by_contra hc
  rw [Bool.not_eq_false] at hc
  have h2 : s.dropWhile isSpaceCh =
      stripChars s ++ ((s.dropWhile isSpaceCh).reverse.takeWhile isSpaceCh).reverse := by
    unfold stripChars
    conv_lhs => rw [← List.reverse_reverse (s.dropWhile isSpaceCh),
      ← List.takeWhile_append_dropWhile (p := isSpaceCh) (l := (s.dropWhile isSpaceCh).reverse)]
    rw [List.reverse_append]
  have h3 : hasDSD (s.dropWhile isSpaceCh) = true := by
    rw [h2]
    exact hasDSD_append_right _ _ hc
  have h4 : hasDSD s = true := by
    conv_lhs => rw [← List.takeWhile_append_dropWhile (p := isSpaceCh) (l := s)]
    exact hasDSD_append_left _ h3
  rw [h4] at h
  simp at h

theorem digCh_eval0 : digCh 0 = '0' := rfl

theorem digCh_eval1 : digCh 1 = '1' := rfl

theorem digCh_eval2 : digCh 2 = '2' := rfl

theorem digCh_eval3 : digCh 3 = '3' := rfl

theorem digCh_eval4 : digCh 4 = '4' := rfl

theorem digCh_eval5 : digCh 5 = '5' := rfl

theorem digCh_eval6 : digCh 6 = '6' := rfl

theorem digCh_eval7 : digCh 7 = '7' := rfl

theorem digCh_eval8 : digCh 8 = '8' := rfl

theorem digCh_eval9 : digCh 9 = '9' := rfl

theorem monthAlts_twoDig (m : Nat) (h1 : 1 ≤ m) (h2 : m ≤ 12) (s : Str) :
    ∃ tl, monthAlts (twoDig m ++ s) = (m, s) :: tl ∧
      ∀ p ∈ tl, ∃ c rest, p.2 = c :: rest ∧ isDigitCh c = true := by
  interval_cases m
  all_goals refine ⟨_, rfl, ?_⟩
  all_goals intro p hp
  all_goals simp +decide [twoDig, digCh_eval0, digCh_eval1, digCh_eval2, digCh_eval3, digCh_eval4, digCh_eval5, digCh_eval6, digCh_eval7, digCh_eval8, digCh_eval9] at hp
  all_goals subst hp
  all_goals exact ⟨_, _, rfl, by decide⟩

theorem dayAlts_twoDig (d : Nat) (h1 : 1 ≤ d) (h2 : d ≤ 31) (s : Str) :
    ∃ tl, dayAlts (twoDig d ++ s) = (d, s) :: tl ∧
      ∀ p ∈ tl, ∃ c rest, p.2 = c :: rest ∧ isDigitCh c = true := by
  interval_cases d
  all_goals refine ⟨_, rfl, ?_⟩
  all_goals intro p hp
  all_goals simp +decide [twoDig, digCh_eval0, digCh_eval1, digCh_eval2, digCh_eval3, digCh_eval4, digCh_eval5, digCh_eval6, digCh_eval7, digCh_eval8, digCh_eval9] at hp
  all_goals subst hp
  all_goals exact ⟨_, _, rfl, by decide⟩

theorem yearEnd2_twoDig (y : Nat) (hy : y ≤ 99) : yearEnd2 (twoDig y) = some y := by
  have h1 := digCh_spec (y / 10) (by omega)
  have h2 := digCh_spec (y % 10) (by omega)
  show yearEnd2 [digCh (y / 10), digCh (y % 10)] = some y
  simp only [yearEnd2]
  rw [if_pos (by simp [h1.1, h2.1]), h1.2.1, h2.2.1]
  exact congrArg some (by omega)

theorem yearEnd4_fourDig (y : Nat) (hy : y ≤ 9999) : yearEnd4 (fourDig y) = some y := by
  have h1 := digCh_spec (y / 1000) (by omega)
  have h2 := digCh_spec (y / 100 % 10) (by omega)
  have h3 := digCh_spec (y / 10 % 10) (by omega)
  have h4 := digCh_spec (y % 10) (by omega)
  show yearEnd4 [digCh (y / 1000), digCh (y / 100 % 10), digCh (y / 10 % 10), digCh (y % 10)] =
    some y
  simp only [yearEnd4]
  rw [if_pos (by simp [h1.1, h2.1, h3.1, h4.1]), h1.2.1, h2.2.1, h3.2.1, h4.2.1]
  exact congrArg some (by omega)

theorem strictMDY_render2 (m d y : Nat) (h1 : 1 ≤ m) (h2 : m ≤ 12) (h3 : 1 ≤ d)
    (h4 : d ≤ 31) (hy : y ≤ 99) : strictMDY 2 (render2 m d y) = some (m, d, y) := by
  obtain ⟨tlm, hm, _⟩ := monthAlts_twoDig m h1 h2 ('/' :: (twoDig d ++ '/' :: twoDig y))
  obtain ⟨tld, hd, _⟩ := dayAlts_twoDig d h3 h4 ('/' :: twoDig y)
  unfold strictMDY
  rw [show render2 m d y = twoDig m ++ ('/' :: (twoDig d ++ '/' :: twoDig y)) from by
    simp [render2]]
  rw [hm]
  refine firstSome_cons_some ?_
  dsimp only
  rw [slashThen_slash, hd]
  refine firstSome_cons_some ?_
  dsimp only
  rw [slashThen_slash, if_pos rfl, yearEnd2_twoDig y hy]
  rfl

theorem strictMDY2_render4 (m d y : Nat) (h1 : 1 ≤ m) (h2 : m ≤ 12) (h3 : 1 ≤ d)
    (h4 : d ≤ 31) : strictMDY 2 (render4 m d y) = none := by
  obtain ⟨tlm, hm, hmex⟩ := monthAlts_twoDig m h1 h2 ('/' :: (twoDig d ++ '/' :: fourDig y))
  obtain ⟨tld, hd, hdex⟩ := dayAlts_twoDig d h3 h4 ('/' :: fourDig y)
  unfold strictMDY
  rw [show render4 m d y = twoDig m ++ ('/' :: (twoDig d ++ '/' :: fourDig y)) from by
    simp [render4]]
  rw [hm]
  refine firstSome_eq_none ?_
  intro a ha
  rcases List.mem_cons.1 ha with rfl | ha
  · dsimp only
    rw [slashThen_slash, hd]
    refine firstSome_eq_none ?_
    intro b hb
    rcases List.mem_cons.1 hb with rfl | hb
    · dsimp only
      rw [slashThen_slash, if_pos rfl]
      rw [show yearEnd2 (fourDig y) = none from rfl]
      rfl
    · obtain ⟨c, rest, hb2, hcd⟩ := hdex b hb
      rw [hb2]
      refine slashThen_ne ?_ _ _
      intro hh
      rw [hh] at hcd
      exact absurd hcd (by decide)
  · obtain ⟨c, rest, ha2, hcd⟩ := hmex a ha
    rw [ha2]
    refine slashThen_ne ?_ _ _
    intro hh
    rw [hh] at hcd
    exact absurd hcd (by decide)

theorem strictMDY4_render4 (m d y : Nat) (h1 : 1 ≤ m) (h2 : m ≤ 12) (h3 : 1 ≤ d)
    (h4 : d ≤ 31) (hy : y ≤ 9999) : strictMDY 4 (render4 m d y) = some (m, d, y) := by
  obtain ⟨tlm, hm, _⟩ := monthAlts_twoDig m h1 h2 ('/' :: (twoDig d ++ '/' :: fourDig y))
  obtain ⟨tld, hd, _⟩ := dayAlts_twoDig d h3 h4 ('/' :: fourDig y)
  unfold strictMDY
  rw [show render4 m d y = twoDig m ++ ('/' :: (twoDig d ++ '/' :: fourDig y)) from by
    simp [render4]]
  rw [hm]
  refine firstSome_cons_some ?_
  dsimp only
  rw [slashThen_slash, hd]
  refine firstSome_cons_some ?_
  dsimp only
  rw [slashThen_slash, if_neg (by decide), yearEnd4_fourDig y hy]
  rfl

theorem nospace_twoDig {n : Nat} (hn : n ≤ 99) : ∀ c ∈ twoDig n, isSpaceCh c = false := by
  intro c hc
  have h1 := digCh_spec (n / 10) (by omega)
  have h2 := digCh_spec (n % 10) (by omega)
  rcases List.mem_cons.1 hc with rfl | hc
  · exact h1.2.2.1
  · rcases List.mem_cons.1 hc with rfl | hc
    · exact h2.2.2.1
    · simp at hc

theorem nospace_fourDig {n : Nat} (hn : n ≤ 9999) : ∀ c ∈ fourDig n, isSpaceCh c = false := by
  intro c hc
  have h1 := digCh_spec (n / 1000) (by omega)
  have h2 := digCh_spec (n / 100 % 10) (by omega)
  have h3 := digCh_spec (n / 10 % 10) (by omega)
  have h4 := digCh_spec (n % 10) (by omega)
  simp only [fourDig, List.mem_cons, List.not_mem_nil, or_false] at hc
  rcases hc with rfl | rfl | rfl | rfl
  · exact h1.2.2.1
  · exact h2.2.2.1
  · exact h3.2.2.1
  · exact h4.2.2.1

theorem strip_render2 {m d y : Nat} (hm : m ≤ 99) (hd : d ≤ 99) (hy : y ≤ 99) :
    stripChars (render2 m d y) = render2 m d y := by
  refine stripChars_eq_self fun c hc => ?_
  rw [show render2 m d y = twoDig m ++ ('/' :: (twoDig d ++ '/' :: twoDig y)) from rfl] at hc
  rcases List.mem_append.1 hc with hc | hc
  · exact nospace_twoDig hm c hc
  · rcases List.mem_cons.1 hc with rfl | hc
    · decide
    · rcases List.mem_append.1 hc with hc | hc
      · exact nospace_twoDig hd c hc
      · rcases List.mem_cons.1 hc with rfl | hc
        · decide
        · exact nospace_twoDig hy c hc

theorem strip_render4 {m d y : Nat} (hm : m ≤ 99) (hd : d ≤ 99) (hy : y ≤ 9999) :
    stripChars (render4 m d y) = render4 m d y := by
  refine stripChars_eq_self fun c hc => ?_
  rw [show render4 m d y = twoDig m ++ ('/' :: (twoDig d ++ '/' :: fourDig y)) from rfl] at hc
  rcases List.mem_append.1 hc with hc | hc
  · exact nospace_twoDig hm c hc
  · rcases List.mem_cons.1 hc with rfl | hc
    · decide
    · rcases List.mem_append.1 hc with hc | hc
      · exact nospace_twoDig hd c hc
      · rcases List.mem_cons.1 hc with rfl | hc
        · decide
        · exact nospace_fourDig hy c hc

theorem mkDate?_pos {y m d : Nat} (h : isValidDate y m d = true) :
    mkDate? y m d = some ⟨y, m, d⟩ := by
  unfold mkDate?
  rw [if_pos h]

theorem parse_render2 {m d y : Nat} (hy : y ≤ 99)
    (hv : isValidDate (pivotY2 y) m d = true) :
    parse_mmddyy_or_yyyy (render2 m d y) = some ⟨pivotY2 y, m, d⟩ := by
  have hb : 1 ≤ (pivotY2 y) ∧ (pivotY2 y) ≤ 9999 ∧ 1 ≤ m ∧ m ≤ 12 ∧ 1 ≤ d ∧
      d ≤ daysInMonth (pivotY2 y) m := valid_bounds (a := ⟨pivotY2 y, m, d⟩) hv
  have hd31 : d ≤ 31 := hb.2.2.2.2.2.trans (daysInMonth_le _ _)
  have hs : stripChars (render2 m d y) = render2 m d y :=
    strip_render2 (hb.2.2.2.1.trans (by norm_num)) (hd31.trans (by norm_num)) hy
  have h2 : strictMDY 2 (render2 m d y) = some (m, d, y) :=
    strictMDY_render2 m d y hb.2.2.1 hb.2.2.2.1 hb.2.2.2.2.1 hd31 hy
  unfold parse_mmddyy_or_yyyy
  simp only [hs, h2, Option.some_bind, mkDate?_pos hv]

theorem parse_render4 {m d y : Nat} (hv : isValidDate y m d = true) :
    parse_mmddyy_or_yyyy (render4 m d y) = some ⟨y, m, d⟩ := by
  have hb : 1 ≤ y ∧ y ≤ 9999 ∧ 1 ≤ m ∧ m ≤ 12 ∧ 1 ≤ d ∧ d ≤ daysInMonth y m :=
    valid_bounds (a := ⟨y, m, d⟩) hv
  have hd31 : d ≤ 31 := hb.2.2.2.2.2.trans (daysInMonth_le _ _)
  have hs : stripChars (render4 m d y) = render4 m d y :=
    strip_render4 (hb.2.2.2.1.trans (by norm_num)) (hd31.trans (by norm_num)) hb.2.1
  have h2 : strictMDY 2 (render4 m d y) = none :=
    strictMDY2_render4 m d y hb.2.2.1 hb.2.2.2.1 hb.2.2.2.2.1 hd31
  have h4 : strictMDY 4 (render4 m d y) = some (m, d, y) :=
    strictMDY4_render4 m d y hb.2.2.1 hb.2.2.2.1 hb.2.2.2.2.1 hd31 hb.2.1
  unfold parse_mmddyy_or_yyyy
  simp only [hs, h2, h4, Option.some_bind, Option.none_bind, mkDate?_pos hv]

theorem parse_none_of_no_dsd {s : Str} (h : hasDSD s = false) :
    parse_mmddyy_or_yyyy s = none := by
  have ht : hasDSD (stripChars s) = false := hasDSD_strip h
  have h2 : strictMDY 2 (stripChars s) = none := by
    cases hh : strictMDY 2 (stripChars s) with
    | none => rfl
    | some v => exact absurd (strictMDY_hasDSD hh) (by simp [ht])
  have h4 : strictMDY 4 (stripChars s) = none := by
    cases hh : strictMDY 4 (stripChars s) with
    | none => rfl
    | some v => exact absurd (strictMDY_hasDSD hh) (by simp [ht])
  have h5 : dateReSearch (stripChars s) = none := dateReSearch_none ht
  unfold parse_mmddyy_or_yyyy
  simp only [h2, h4, h5, Option.none_bind]

/-- C6 (amended): on the canonical `MM/DD/YY` rendering of a valid date the
parser returns the exact date with the two-digit year sent through the
`strptime` POSIX pivot `pivotY2` — `2000 + YY` for `YY ≤ 68` but `1900 + YY`
for `69 ≤ YY ≤ 99`, refuting the claimed unconditional `2000 + YY`; on the
canonical `MM/DD/YYYY` rendering it returns the exact date; and on any
string with no digit-slash-digit pattern it returns `none` (totality —
never raising — holds by construction, `parse_mmddyy_or_yyyy` being a total
function into `Option Date`). -/
theorem C6_parse_correct :
    (∀ m d y : Nat, y ≤ 99 → isValidDate (pivotY2 y) m d = true →
      parse_mmddyy_or_yyyy (render2 m d y) = some ⟨pivotY2 y, m, d⟩) ∧
    (∀ m d y : Nat, isValidDate y m d = true →
      parse_mmddyy_or_yyyy (render4 m d y) = some ⟨y, m, d⟩) ∧
    (∀ y : Nat, y ≤ 68 → pivotY2 y = 2000 + y) ∧
    (∀ y : Nat, 69 ≤ y → y ≤ 99 → pivotY2 y = 1900 + y) ∧
    (∀ s : Str, hasDSD s = false → parse_mmddyy_or_yyyy s = none) :=
  ⟨fun _ _ _ hy hv => parse_render2 hy hv,
   fun _ _ _ hv => parse_render4 hv,
   fun y hy => by simp [pivotY2, hy],
   fun y h1 _ => by simp only [pivotY2]; rw [if_neg (by omega)],
   fun _ h => parse_none_of_no_dsd h⟩

/-- Witness for C6: concrete instances — `01/02/99` parses to 1999-01-02
(pivot, not 2099), `01/02/05` to 2005-01-02, `12/31/2024` exactly, and a
digit-free string to `none`. -/
theorem C6_parse_correct_witness :
    parse_mmddyy_or_yyyy (render2 1 2 99) = some ⟨pivotY2 99, 1, 2⟩ ∧
    parse_mmddyy_or_yyyy (render2 1 2 5) = some ⟨pivotY2 5, 1, 2⟩ ∧
    parse_mmddyy_or_yyyy (render4 12 31 2024) = some ⟨2024, 12, 31⟩ ∧
    pivotY2 5 = 2000 + 5 ∧ pivotY2 99 = 1900 + 99 ∧
    parse_mmddyy_or_yyyy (['a'] : Str) = none :=
  ⟨C6_parse_correct.1 1 2 99 (by decide) (by decide),
   C6_parse_correct.1 1 2 5 (by decide) (by decide),
   C6_parse_correct.2.1 12 31 2024 (by decide),
   C6_parse_correct.2.2.1 5 (by decide),
   C6_parse_correct.2.2.2.1 99 (by decide) (by decide),
   C6_parse_correct.2.2.2.2 ['a'] (by decide)⟩
